import Mathlib

/-!
Shallow embedding of the ECDH implementation (`src/primefield.h`, `src/ecdh.c`).

GMP integers (`mpz_t`) are modelled as `ℤ`.  The binary-digit strings that
`mpz_get_str(NULL, 2, ·)` produces are modelled as LSB-first `List Bool`
(the C loops scan the string from its last character, i.e. from the least
significant bit; a leading `'-'` character of a negative number is scanned
last and, not being `'1'`, acts as a no-op bit).  Hex strings are modelled
as `List Char`.  The only partiality in the C code is `mpz_set_str` leaving
the target value unspecified on a parse error, which we model with
`Option`.
-/

set_option maxRecDepth 40000

namespace ECDH

/-- LSB-first binary digits of a natural number, with fuel for structural
recursion (the C code gets them from `mpz_get_str(NULL, 2, b)`). -/
def bitsAux : ℕ → ℕ → List Bool
  | 0, _ => []
  | f + 1, n => if n = 0 then [] else (n % 2 = 1) :: bitsAux f (n / 2)

/-- LSB-first binary digits; `mpz_get_str` prints `"0"` for zero, whose
single character `'0'` is scanned once by the loops, hence `[false]`. -/
def lsbBits (n : ℕ) : List Bool := if n = 0 then [false] else bitsAux n n

/-- The bit list the C loops actually traverse for an `mpz_t` value `b`:
the digits of `|b|` LSB-first, followed (for negative `b`) by the `'-'`
character, which compares unequal to `'1'` and is therefore a no-op. -/
def bitsC (b : ℤ) : List Bool :=
  lsbBits b.natAbs ++ (if b < 0 then [false] else [])

/-- `prime_field_add` from `src/primefield.h`. -/
def prime_field_add (a b p : ℤ) : ℤ :=
  let tmp := a + b
  if p ≤ tmp then tmp - p
  else if tmp < 0 then tmp + p
  else tmp

/-- `prime_field_sub` from `src/primefield.h`: negate `b`, then field-add. -/
def prime_field_sub (a b p : ℤ) : ℤ := prime_field_add a (-b) p

/-- The double-and-add loop of `prime_field_mul`: for each scanned bit,
conditionally field-add `copy` into `res`, then field-double `copy`. -/
def pfMulLoop : List Bool → ℤ → ℤ → ℤ → ℤ
  | [], res, _, _ => res
  | bit :: rest, res, copy, p =>
      pfMulLoop rest (if bit then prime_field_add res copy p else res)
        (prime_field_add copy copy p) p

/-- `prime_field_mul` from `src/primefield.h`. -/
def prime_field_mul (a b p : ℤ) : ℤ := pfMulLoop (bitsC b) 0 a p

/-- `prime_field_sq` from `src/primefield.h`: `res` starts at 1 and the
hard-coded exponent string `"10"` is scanned from its last character:
for `'0'` only `copy` is squared, for `'1'` `res` is multiplied by `copy`
(the final squaring of `copy` is dead and omitted). -/
def prime_field_sq (a p : ℤ) : ℤ :=
  let copy := a
  let res : ℤ := 1
  let copy := prime_field_mul copy copy p
  prime_field_mul res copy p

/-- The `while (copy_p != 0)` loop of `prime_field_div`, with fuel.
State is `(s, t, u, v, copy_b, copy_p)`; each round divides the *function
argument* `a` (not the remainder chain) by `copy_p` with floor semantics
(`mpz_fdiv_qr`) and shuffles the Bézout bookkeeping exactly as the C does.
Returns the final `u`.  The C loop always terminates for `p > 0` (the
chain `copy_p, a fmod copy_p, …` strictly decreases), so fuel `p.toNat + 2`
is never exhausted on the inputs the program uses. -/
def pfDivLoop : ℕ → ℤ → ℤ × ℤ × ℤ × ℤ × ℤ × ℤ → ℤ
  | 0, _, (_, _, u, _, _, _) => u
  | fuel + 1, a, (s, t, u, v, _, cp) =>
      if cp = 0 then u
      else
        let q := Int.fdiv a cp
        let r := Int.fmod a cp
        pfDivLoop fuel a (u - q * s, v - q * t, s, t, cp, r)

/-- `prime_field_div` from `src/primefield.h`: run the loop starting from
`(s,t,u,v,copy_b,copy_p) = (1,0,0,1,b,p)`, then `prime_field_mul(res, a, u, p)`. -/
def prime_field_div (a b p : ℤ) : ℤ :=
  prime_field_mul a (pfDivLoop (p.toNat + 2) a (1, 0, 0, 1, b, p)) p

/-- `struct Point` from `src/ecdh.h`. -/
structure Point where
  x : ℤ
  y : ℤ
deriving DecidableEq, Repr

/-- `struct Curve` from `src/ecdh.h`. -/
structure Curve where
  prime : ℤ
  a : ℤ
  b : ℤ
  G : Point
  order : ℤ
  cofactor : ℤ
  key_size_bits : ℕ
deriving DecidableEq, Repr

/-- `create_point` from `src/ecdh.c`: a fresh point at `(0,0)`. -/
def create_point : Point := ⟨0, 0⟩

/-- `point_add` from `src/ecdh.c` (`copy_point` is value copying). -/
def point_add (p q : Point) (ec : Curve) : Point :=
  if p.x = 0 ∧ p.y = 0 then q
  else if q.x = 0 ∧ q.y = 0 then p
  else if p.x = q.x then create_point
  else
    let x_delta := prime_field_sub p.x q.x ec.prime
    let y_delta := prime_field_sub p.y q.y ec.prime
    let s := prime_field_div y_delta x_delta ec.prime
    let tmp1 := prime_field_sq s ec.prime
    let tmp2 := prime_field_add p.x q.x ec.prime
    let rx := prime_field_sub tmp1 tmp2 ec.prime
    let tmp1' := prime_field_sub p.x rx ec.prime
    let tmp2' := prime_field_mul s tmp1' ec.prime
    let ry := prime_field_sub tmp2' p.y ec.prime
    ⟨rx, ry⟩

/-- `point_double` from `src/ecdh.c`. -/
def point_double (p : Point) (ec : Curve) : Point :=
  let px_sq := prime_field_sq p.x ec.prime
  let tmp1 := prime_field_mul px_sq 3 ec.prime
  let sum := prime_field_add tmp1 ec.a ec.prime
  let px_2 := prime_field_mul p.x 2 ec.prime
  let py_2 := prime_field_mul p.y 2 ec.prime
  let s := prime_field_div sum py_2 ec.prime
  let s_sq := prime_field_sq s ec.prime
  let rx := prime_field_sub s_sq px_2 ec.prime
  let tmp1' := prime_field_sub p.x rx ec.prime
  let tmp2' := prime_field_mul s tmp1' ec.prime
  let ry := prime_field_sub tmp2' p.y ec.prime
  ⟨rx, ry⟩

/-- The bit loop of `scalar_mult`: on a `'1'` bit the accumulator becomes
`point_add(p_copy, res)`, and `p_copy` is doubled every round. -/
def scalarLoop : List Bool → Point → Point → Curve → Point
  | [], res, _, _ => res
  | bit :: rest, res, pc, ec =>
      scalarLoop rest (if bit then point_add pc res ec else res)
        (point_double pc ec) ec

/-- `scalar_mult` from `src/ecdh.c`. -/
def scalar_mult (p : Point) (k : ℤ) (ec : Curve) : Point :=
  scalarLoop (bitsC k) create_point p ec

/-- Lower-case hex digit for a value `< 16`, as `mpz_get_str(…, 16, …)`
prints it. -/
def hexDigit (n : ℕ) : Char :=
  if n < 10 then Char.ofNat (48 + n) else Char.ofNat (87 + n)

/-- MSB-first hex digits of a positive number, with fuel for structural
recursion; digits are accumulated in front of `acc`. -/
def hexAux : ℕ → ℕ → List Char → List Char
  | 0, _, acc => acc
  | f + 1, n, acc => if n = 0 then acc else hexAux f (n / 16) (hexDigit (n % 16) :: acc)

/-- Minimal lower-case hex representation of a natural number
(`mpz_get_str(…, 16, ·)` prints `"0"` for zero and no leading zeros). -/
def toHex (n : ℕ) : List Char := if n = 0 then ['0'] else hexAux n n []

/-- `scalar_to_str` from `src/primefield.h`: `mpz_get_str(…, 16, scalar)`
(a negative value would get a leading `'-'`; the program only converts
non-negative values). -/
def scalar_to_str (n : ℤ) : List Char :=
  if n < 0 then '-' :: toHex n.natAbs else toHex n.natAbs

/-- Numeric value of a hex digit char, `none` for characters outside the
base-16 alphabet accepted by `mpz_set_str` (both cases allowed). -/
def hexVal (c : Char) : Option ℕ :=
  if 48 ≤ c.toNat ∧ c.toNat ≤ 57 then some (c.toNat - 48)
  else if 97 ≤ c.toNat ∧ c.toNat ≤ 102 then some (c.toNat - 87)
  else if 65 ≤ c.toNat ∧ c.toNat ≤ 70 then some (c.toNat - 55)
  else none

/-- MSB-first hex parse, `none` on the first invalid character. -/
def parseHexAux : List Char → ℕ → Option ℕ
  | [], acc => some acc
  | c :: rest, acc =>
      match hexVal c with
      | none => none
      | some v => parseHexAux rest (16 * acc + v)

/-- `str_to_scalar` from `src/primefield.h` (`mpz_init_set_str(…, 16)`).
`mpz_set_str` rejects an empty digit string and any non-hex character;
the C program ignores the error code and the `mpz_t` value is then
unspecified, which we model as `none`. -/
def str_to_scalar (cs : List Char) : Option ℤ :=
  if cs.isEmpty then none else (parseHexAux cs 0).map Int.ofNat

/-- `str_to_point` from `src/ecdh.c`: with `len` the string length and
`str_end_idx = len/2 - 1`, the x-field is `str[2 … 2+str_end_idx)` and the
y-field is `str[1+len/2 … 1+len/2+str_end_idx)`; both are handed to
`str_to_scalar` with the error code dropped.  For `len < 2` the C computes
`str_end_idx = -1` and writes out of bounds, which we also model as
`none`. -/
def str_to_point (cs : List Char) : Option Point :=
  if cs.length < 2 then none
  else
    let idx := cs.length / 2 - 1
    match str_to_scalar ((cs.drop 2).take idx),
          str_to_scalar ((cs.drop (1 + cs.length / 2)).take idx) with
    | some x, some y => some ⟨x, y⟩
    | _, _ => none

/-- `point_to_str` from `src/ecdh.c`: `"04"` then the two hex fields, the
shorter one zero-left-padded to the length of the longer one (the
zero-filled `calloc` buffer plus the two `strncpy` calls produce exactly
this layout). -/
def point_to_str (pt : Point) : List Char :=
  let x := scalar_to_str pt.x
  let y := scalar_to_str pt.y
  if x.length < y.length then
    '0' :: '4' :: (List.replicate (y.length - x.length) '0' ++ x ++ y)
  else if y.length < x.length then
    '0' :: '4' :: (x ++ List.replicate (x.length - y.length) '0' ++ y)
  else
    '0' :: '4' :: (x ++ y)

/-- `get_secp192k1_curve` from `src/ecdh.c`; the hex string literals of the
source are written as hex numerals, and the generator's SEC1 string is
split into its two coordinates. -/
def get_secp192k1_curve : Curve where
  prime := 0xfffffffffffffffffffffffffffffffffffffffeffffee37
  a := 0
  b := 3
  G := ⟨0xdb4ff10ec057e9ae26b07d0280b7f4341da5d1b1eae06c7d,
        0x9b2f2f6d9c5628a7844163d015be86344082aa88d95e2f9d⟩
  order := 0xfffffffffffffffffffffffe26f2fc170f69466a74defd8d
  cofactor := 1
  key_size_bits := 160

/-- `get_secp192r1_curve` from `src/ecdh.c`. -/
def get_secp192r1_curve : Curve where
  prime := 0xFFFFFFFFFFFFFFFFFFFFFFFFFFFFFFFEFFFFFFFFFFFFFFFF
  a := 0xFFFFFFFFFFFFFFFFFFFFFFFFFFFFFFFEFFFFFFFFFFFFFFFC
  b := 0x64210519E59C80E70FA7E9AB72243049FEB8DEECC146B9B1
  G := ⟨0x188DA80EB03090F67CBF20EB43A18800F4FF0AFD82FF1012,
        0x07192B95FFC8DA78631011ED6B24CDD573F977A11E794811⟩
  order := 0xFFFFFFFFFFFFFFFFFFFFFFFF99DEF836146BC9B1B4D22831
  cofactor := 1
  key_size_bits := 160

/-- `enum Curves` from `src/ecdh.h`. -/
inductive Curves where
  | SECP_192_K1
  | SECP_192_R1
deriving DecidableEq, Repr

/-- `struct KeyPair` from `src/ecdh.h`. -/
structure KeyPair where
  private_ : ℤ
  public : List Char
  ec : Curve

/-- `mpz_import(…, bytes, 1, 1, 1, 0, buf)`: big-endian base-256 value of a
byte list. -/
def bytesToScalar (bytes : List ℕ) : ℤ :=
  Int.ofNat (bytes.foldl (fun acc b => 256 * acc + b) 0)

/-- `gen_key_pair` from `src/ecdh.c`, with the `key_size_bits/8` bytes read
from `/dev/urandom` made an explicit argument (the stream is modelled as a
byte list of which the first `bytes` entries are consumed). -/
def gen_key_pair (curve : Curves) (randomBytes : List ℕ) : KeyPair :=
  let ec := match curve with
    | .SECP_192_R1 => get_secp192r1_curve
    | .SECP_192_K1 => get_secp192k1_curve
  let priv := bytesToScalar (randomBytes.take (ec.key_size_bits / 8))
  let public_key := scalar_mult ec.G priv ec
  { private_ := priv, public := point_to_str public_key, ec := ec }

/-- `get_secret` from `src/ecdh.c` (the `Option` is `str_to_point`'s
partiality on unparseable peer strings). -/
def get_secret (key_pair : KeyPair) (peer : List Char) : Option (List Char) :=
  (str_to_point peer).map fun peer_point =>
    point_to_str (scalar_mult peer_point key_pair.private_ key_pair.ec)

/-! ### Characterization of the prime-field operations -/

/-- A value stored in a field variable: reduced into `[0, p)`. -/
def InField (p x : ℤ) : Prop := 0 ≤ x ∧ x < p

theorem emod_eq_sub_self {x p : ℤ} (h1 : 0 ≤ x - p) (h2 : x - p < p) :
    x % p = x - p := by
  have h3 : (x - p + p * 1) % p = (x - p) % p := Int.add_mul_emod_self_left ..
  have h4 : (x - p) % p = x - p := Int.emod_eq_of_lt h1 h2
  calc x % p = (x - p + p * 1) % p := by ring_nf
    _ = x - p := by rw [h3, h4]

theorem emod_eq_add_self {x p : ℤ} (h1 : 0 ≤ x + p) (h2 : x + p < p) :
    x % p = x + p := by
  have h3 : (x + p + p * (-1)) % p = (x + p) % p := Int.add_mul_emod_self_left ..
  have h4 : (x + p) % p = x + p := Int.emod_eq_of_lt h1 h2
  calc x % p = (x + p + p * (-1)) % p := by ring_nf
    _ = x + p := by rw [h3, h4]

theorem prime_field_add_eq {p a b : ℤ} (ha : InField p a) (hb : InField p b) :
    prime_field_add a b p = (a + b) % p := by
  obtain ⟨ha0, hap⟩ := ha
  obtain ⟨hb0, hbp⟩ := hb
  show (if p ≤ a + b then a + b - p else if a + b < 0 then a + b + p else a + b) = (a + b) % p
  split
  · rename_i h
    exact (emod_eq_sub_self (by omega) (by omega)).symm
  · rename_i h
    split
    · rename_i h2
      exact absurd h2 (by omega)
    · rename_i h2
      exact (Int.emod_eq_of_lt (by omega) (by omega)).symm

theorem prime_field_sub_eq {p a b : ℤ} (ha : InField p a) (hb : InField p b) :
    prime_field_sub a b p = (a - b) % p := by
  obtain ⟨ha0, hap⟩ := ha
  obtain ⟨hb0, hbp⟩ := hb
  show (if p ≤ a + -b then a + -b - p else if a + -b < 0 then a + -b + p else a + -b) = (a - b) % p
  rw [show a + -b = a - b by ring]
  split
  · rename_i h
    exact absurd h (by omega)
  · rename_i h
    split
    · rename_i h2
      exact (emod_eq_add_self (by omega) (by omega)).symm
    · rename_i h2
      exact (Int.emod_eq_of_lt (by omega) (by omega)).symm

theorem prime_field_add_mem {p a b : ℤ} (hp : 0 < p) (ha : InField p a)
    (hb : InField p b) : InField p (prime_field_add a b p) := by
  rw [prime_field_add_eq ha hb]
  exact ⟨Int.emod_nonneg _ (by omega), Int.emod_lt_of_pos _ hp⟩

/-- Numeric value of an LSB-first bit list. -/
def bitsVal : List Bool → ℕ
  | [] => 0
  | b :: rest => (if b then 1 else 0) + 2 * bitsVal rest

theorem bitsVal_append_false (l : List Bool) :
    bitsVal (l ++ [false]) = bitsVal l := by
  induction l with
  | nil => rfl
  | cons b rest ih => simp [bitsVal, ih]

theorem bitsVal_bitsAux {f n : ℕ} (h : n ≤ f) : bitsVal (bitsAux f n) = n := by
  induction f generalizing n with
  | zero => interval_cases n; rfl
  | succ f ih =>
    unfold bitsAux
    split
    · simp [bitsVal]; omega
    · rename_i hn
      have h2 : n / 2 ≤ f := by omega
      simp only [bitsVal, ih h2]
      rcases Nat.mod_two_eq_zero_or_one n with h | h <;> simp [h] <;> omega

theorem bitsVal_lsbBits (n : ℕ) : bitsVal (lsbBits n) = n := by
  unfold lsbBits
  split
  · simp [bitsVal]; omega
  · exact bitsVal_bitsAux le_rfl

theorem bitsVal_bitsC (b : ℤ) : bitsVal (bitsC b) = b.natAbs := by
  unfold bitsC
  split
  · rw [bitsVal_append_false, bitsVal_lsbBits]
  · rw [List.append_nil, bitsVal_lsbBits]

theorem pfMulLoop_eq {p : ℤ} (hp : 0 < p) :
    ∀ (bits : List Bool) (res copy : ℤ), InField p res → InField p copy →
      pfMulLoop bits res copy p = (res + copy * (bitsVal bits : ℤ)) % p := by
  intro bits
  induction bits with
  | nil =>
    intro res copy hres _
    simp only [pfMulLoop, bitsVal, Nat.cast_zero, mul_zero, add_zero]
    exact (Int.emod_eq_of_lt hres.1 hres.2).symm
  | cons b rest ih =>
    intro res copy hres hcopy
    simp only [pfMulLoop]
    have hres' : InField p (if b then prime_field_add res copy p else res) := by
      split
      · exact prime_field_add_mem hp hres hcopy
      · exact hres
    have hcopy' : InField p (prime_field_add copy copy p) :=
      prime_field_add_mem hp hcopy hcopy
    rw [ih _ _ hres' hcopy']
    rw [prime_field_add_eq hcopy hcopy]
    have hm : ∀ z : ℤ, z % p ≡ z [ZMOD p] := fun z => Int.emod_emod_of_dvd z dvd_rfl
    cases b with
    | true =>
      rw [if_pos rfl, prime_field_add_eq hres hcopy]
      have hc : ((bitsVal (true :: rest) : ℕ) : ℤ) = 1 + 2 * (bitsVal rest : ℤ) := by
        simp only [bitsVal, if_pos rfl]
        push_cast
        ring
      rw [hc]
      have key : ((res + copy) % p + ((copy + copy) % p) * (bitsVal rest : ℤ))
          ≡ res + copy * (1 + 2 * (bitsVal rest : ℤ)) [ZMOD p] := by
        calc ((res + copy) % p + ((copy + copy) % p) * (bitsVal rest : ℤ))
            ≡ (res + copy) + (copy + copy) * (bitsVal rest : ℤ) [ZMOD p] :=
              (hm _).add ((hm _).mul_right _)
          _ = res + copy * (1 + 2 * (bitsVal rest : ℤ)) := by ring
      exact key
    | false =>
      rw [if_neg (by simp)]
      have hc : ((bitsVal (false :: rest) : ℕ) : ℤ) = 2 * (bitsVal rest : ℤ) := by
        simp only [bitsVal, if_neg (by simp : ¬(false = true))]
        push_cast
        ring
      rw [hc]
      have key : (res + ((copy + copy) % p) * (bitsVal rest : ℤ))
          ≡ res + copy * (2 * (bitsVal rest : ℤ)) [ZMOD p] := by
        calc (res + ((copy + copy) % p) * (bitsVal rest : ℤ))
            ≡ res + (copy + copy) * (bitsVal rest : ℤ) [ZMOD p] :=
              (Int.ModEq.refl res).add ((hm _).mul_right _)
          _ = res + copy * (2 * (bitsVal rest : ℤ)) := by ring
      exact key

/-- `prime_field_mul` computes `a * |b| mod p` whenever `a` is a reduced
field element (the C doc requires both operands in the field, but only the
first argument's range matters for this identity; the loop scans `|b|`'s
bits, a sign character being a no-op). -/
theorem prime_field_mul_eq {p a : ℤ} (hp : 0 < p) (ha : InField p a) (b : ℤ) :
    prime_field_mul a b p = (a * (b.natAbs : ℤ)) % p := by
  unfold prime_field_mul
  rw [pfMulLoop_eq hp _ 0 a ⟨le_rfl, hp⟩ ha, bitsVal_bitsC]
  ring_nf

theorem prime_field_mul_mem {p a : ℤ} (hp : 0 < p) (ha : InField p a) (b : ℤ) :
    InField p (prime_field_mul a b p) := by
  rw [prime_field_mul_eq hp ha b]
  exact ⟨Int.emod_nonneg _ (by omega), Int.emod_lt_of_pos _ hp⟩

theorem prime_field_sq_eq {p a : ℤ} (hp : 1 < p) (ha : InField p a) :
    prime_field_sq a p = (a * a) % p := by
  unfold prime_field_sq
  have h1 : InField p (prime_field_mul a a p) := prime_field_mul_mem (by omega) ha a
  rw [prime_field_mul_eq (by omega) ⟨by omega, hp⟩ (prime_field_mul a a p)]
  rw [Int.natAbs_of_nonneg h1.1, one_mul]
  rw [prime_field_mul_eq (by omega) ha a, Int.natAbs_of_nonneg ha.1]
  exact Int.emod_emod_of_dvd _ dvd_rfl

theorem prime_field_sq_mem {p a : ℤ} (hp : 1 < p) (ha : InField p a) :
    InField p (prime_field_sq a p) := by
  rw [prime_field_sq_eq hp ha]
  exact ⟨Int.emod_nonneg _ (by omega), Int.emod_lt_of_pos _ (by omega)⟩

/-- `prime_field_mul 0 b p = 0`: the accumulator and the running copy both
stay zero. -/
theorem prime_field_mul_zero_left {p : ℤ} (hp : 0 < p) (b : ℤ) :
    prime_field_mul 0 b p = 0 := by
  rw [prime_field_mul_eq hp ⟨le_rfl, hp⟩ b, zero_mul, Int.zero_emod]

/-- The central accident of `prime_field_div`: the loop divides the function
argument `a` (not the Euclid remainder chain) by `copy_p`, so for a reduced
dividend `a ∈ [0, p)` the first round turns `copy_p` into `a` itself, the
second (if `a ≠ 0`) into `0`, and the surviving Bézout coefficient `u` is
`0` (or `1` when `a = 0`), making the result `a * u mod p = 0` — whatever
the divisor `b` is. -/
theorem prime_field_div_eq_zero {p a : ℤ} (ha : InField p a) (b : ℤ) :
    prime_field_div a b p = 0 := by
  obtain ⟨ha0, hap⟩ := ha
  have hp : 0 < p := by omega
  have hpne : ¬(p = (0 : ℤ)) := by omega
  have hq : Int.fdiv a p = 0 := by
    rw [Int.fdiv_eq_ediv _ (by omega)]
    exact Int.ediv_eq_zero_of_lt ha0 hap
  have hr : Int.fmod a p = a := by
    rw [Int.fmod_eq_emod _ (by omega)]
    exact Int.emod_eq_of_lt ha0 hap
  obtain ⟨g, hg⟩ : ∃ g, p.toNat + 2 = g + 1 + 1 + 1 := ⟨p.toNat - 1, by omega⟩
  unfold prime_field_div
  rw [hg]
  -- round 1: copy_p = p ≠ 0; a is divided by p: quotient 0, remainder a
  rw [pfDivLoop, if_neg hpne]
  show prime_field_mul a
      (pfDivLoop (g + 1 + 1) a
        (0 - Int.fdiv a p * 1, 1 - Int.fdiv a p * 0, 1, 0, p, Int.fmod a p)) p = 0
  rw [hq, hr]
  norm_num
  rcases eq_or_lt_of_le ha0 with ha' | ha'
  · -- a = 0: round 2 sees copy_p = 0 and returns u = 1; res = mul(0, 1, p) = 0
    rw [pfDivLoop, if_pos ha'.symm]
    rw [← ha']
    exact prime_field_mul_zero_left hp 1
  · -- a > 0: round 2 divides a by a (quotient 1, remainder 0), round 3 returns u = 0
    have hq2 : Int.fdiv a a = 1 := by
      rw [Int.fdiv_eq_ediv _ ha0]
      exact Int.ediv_self (by omega)
    have hr2 : Int.fmod a a = 0 := by
      rw [Int.fmod_eq_emod _ ha0]
      exact Int.emod_self
    rw [pfDivLoop, if_neg (by omega)]
    show prime_field_mul a
        (pfDivLoop (g + 1) a
          (1 - Int.fdiv a a * 0, 0 - Int.fdiv a a * 1, 0, 1, a, Int.fmod a a)) p = 0
    rw [hq2, hr2]
    norm_num
    rw [pfDivLoop, if_pos rfl]
    rw [prime_field_mul_eq hp ⟨ha0, hap⟩ 0]
    norm_num

/-! ### Characterization of the point operations

Because `prime_field_div` always returns `0` on a reduced dividend, the
slope in both `point_add` and `point_double` is always `0`, which collapses
the two operations to simple affine maps. -/

theorem point_double_char {ec : Curve} (hp : 1 < ec.prime)
    (ha : InField ec.prime ec.a) (P : Point) (hx : InField ec.prime P.x)
    (hy : InField ec.prime P.y) :
    point_double P ec = ⟨(-(2 * P.x)) % ec.prime, (-P.y) % ec.prime⟩ := by
  obtain ⟨hx0, hxp⟩ := hx
  obtain ⟨hy0, hyp⟩ := hy
  have hp0 : (0 : ℤ) < ec.prime := by omega
  unfold point_double
  have h1 : InField ec.prime (prime_field_sq P.x ec.prime) :=
    prime_field_sq_mem hp ⟨hx0, hxp⟩
  have h2 : InField ec.prime (prime_field_mul (prime_field_sq P.x ec.prime) 3 ec.prime) :=
    prime_field_mul_mem hp0 h1 3
  have h3 : InField ec.prime
      (prime_field_add (prime_field_mul (prime_field_sq P.x ec.prime) 3 ec.prime) ec.a ec.prime) :=
    prime_field_add_mem hp0 h2 ha
  have hdiv : prime_field_div
      (prime_field_add (prime_field_mul (prime_field_sq P.x ec.prime) 3 ec.prime) ec.a ec.prime)
      (prime_field_mul P.y 2 ec.prime) ec.prime = 0 :=
    prime_field_div_eq_zero h3 _
  simp only [hdiv]
  have hsq0 : prime_field_sq 0 ec.prime = 0 := by
    rw [prime_field_sq_eq hp ⟨le_rfl, hp0⟩]
    norm_num
  simp only [hsq0]
  have hpx2 : prime_field_mul P.x 2 ec.prime = (2 * P.x) % ec.prime := by
    rw [prime_field_mul_eq hp0 ⟨hx0, hxp⟩ 2]
    norm_num
    ring_nf
  have hpx2mem : InField ec.prime (prime_field_mul P.x 2 ec.prime) :=
    prime_field_mul_mem hp0 ⟨hx0, hxp⟩ 2
  have hrx : prime_field_sub 0 (prime_field_mul P.x 2 ec.prime) ec.prime
      = (-(2 * P.x)) % ec.prime := by
    rw [prime_field_sub_eq ⟨le_rfl, hp0⟩ hpx2mem, hpx2]
    have : (0 - (2 * P.x) % ec.prime) ≡ -(2 * P.x) [ZMOD ec.prime] := by
      calc (0 - (2 * P.x) % ec.prime)
          ≡ 0 - (2 * P.x) [ZMOD ec.prime] :=
            (Int.ModEq.refl 0).sub (Int.emod_emod_of_dvd _ dvd_rfl)
        _ = -(2 * P.x) := by ring
    exact this
  rw [hrx]
  have hmul0 : prime_field_mul 0
      (prime_field_sub P.x ((-(2 * P.x)) % ec.prime) ec.prime) ec.prime = 0 :=
    prime_field_mul_zero_left hp0 _
  rw [hmul0]
  have hry : prime_field_sub 0 P.y ec.prime = (-P.y) % ec.prime := by
    rw [prime_field_sub_eq ⟨le_rfl, hp0⟩ ⟨hy0, hyp⟩]
    norm_num
  rw [hry]

theorem point_add_char {ec : Curve} (hp : 1 < ec.prime) (P Q : Point)
    (hPx : InField ec.prime P.x) (hPy : InField ec.prime P.y)
    (hQx : InField ec.prime Q.x) (hQy : InField ec.prime Q.y)
    (hP : ¬(P.x = 0 ∧ P.y = 0)) (hQ : ¬(Q.x = 0 ∧ Q.y = 0))
    (hxne : P.x ≠ Q.x) :
    point_add P Q ec = ⟨(-(P.x + Q.x)) % ec.prime, (-P.y) % ec.prime⟩ := by
  have hp0 : (0 : ℤ) < ec.prime := by omega
  unfold point_add
  rw [if_neg hP, if_neg hQ, if_neg hxne]
  have hyd : InField ec.prime (prime_field_sub P.y Q.y ec.prime) := by
    rw [prime_field_sub_eq hPy hQy]
    exact ⟨Int.emod_nonneg _ (by omega), Int.emod_lt_of_pos _ hp0⟩
  have hdiv : prime_field_div (prime_field_sub P.y Q.y ec.prime)
      (prime_field_sub P.x Q.x ec.prime) ec.prime = 0 :=
    prime_field_div_eq_zero hyd _
  simp only [hdiv]
  have hsq0 : prime_field_sq 0 ec.prime = 0 := by
    rw [prime_field_sq_eq hp ⟨le_rfl, hp0⟩]
    norm_num
  simp only [hsq0]
  have haddmem : InField ec.prime (prime_field_add P.x Q.x ec.prime) :=
    prime_field_add_mem hp0 hPx hQx
  have hrx : prime_field_sub 0 (prime_field_add P.x Q.x ec.prime) ec.prime
      = (-(P.x + Q.x)) % ec.prime := by
    rw [prime_field_sub_eq ⟨le_rfl, hp0⟩ haddmem, prime_field_add_eq hPx hQx]
    have : (0 - (P.x + Q.x) % ec.prime) ≡ -(P.x + Q.x) [ZMOD ec.prime] := by
      calc (0 - (P.x + Q.x) % ec.prime)
          ≡ 0 - (P.x + Q.x) [ZMOD ec.prime] :=
            (Int.ModEq.refl 0).sub (Int.emod_emod_of_dvd _ dvd_rfl)
        _ = -(P.x + Q.x) := by ring
    exact this
  rw [hrx]
  have hmul0 : prime_field_mul 0
      (prime_field_sub P.x ((-(P.x + Q.x)) % ec.prime) ec.prime) ec.prime = 0 :=
    prime_field_mul_zero_left hp0 _
  rw [hmul0]
  have hry : prime_field_sub 0 P.y ec.prime = (-P.y) % ec.prime := by
    rw [prime_field_sub_eq ⟨le_rfl, hp0⟩ hPy]
    norm_num
  rw [hry]

/-- Doubling the `(0,0)` identity sentinel yields `(0,0)` again. -/
theorem point_double_id {ec : Curve} (hp : 1 < ec.prime)
    (ha : InField ec.prime ec.a) : point_double (⟨0, 0⟩ : Point) ec = ⟨0, 0⟩ := by
  have h0 : InField ec.prime 0 := ⟨le_rfl, by omega⟩
  rw [point_double_char hp ha ⟨0, 0⟩ h0 h0]
  norm_num

/-! ### The accidental structure of `scalar_mult`

Starting from a base point `(x0, y0)`, every intermediate `p_copy` is
`((-2)^t·x0 mod p, (-1)^t·y0 mod p)` and the accumulator is either still
the `(0,0)` sentinel or `(c·x0 mod p, ±y0 mod p)` for an integer
coefficient `c`.  `cAcc` replays the loop on the level of these
coefficients. -/

/-- Coefficient automaton of the `scalar_mult` loop: state `none` is the
untouched `(0,0)` accumulator; state `some (c, e)` stands for the point
`(c·x0 mod p, e·y0 mod p)`.  `t` is the current doubling exponent. -/
def cAcc : List Bool → ℕ → Option (ℤ × ℤ) → Option (ℤ × ℤ)
  | [], _, st => st
  | bit :: rest, t, st =>
      cAcc rest (t + 1)
        (if bit then
          some (match st with
            | none => ((-2) ^ t, (-1) ^ t)
            | some (c, _) => (-((-2) ^ t + c), -((-1) ^ t)))
        else st)

/-- The point denoted by a coefficient-automaton state. -/
def stPoint (p x0 y0 : ℤ) : Option (ℤ × ℤ) → Point
  | none => ⟨0, 0⟩
  | some (c, e) => ⟨(c * x0) % p, (e * y0) % p⟩

/-- Soundness data carried along the loop: the coefficient is nonzero and
exponentially bounded, and the sign is `±1`. -/
def stOk : Option (ℤ × ℤ) → ℕ → Prop
  | none, _ => True
  | some (c, e), t => c ≠ 0 ∧ c.natAbs < 2 ^ t ∧ (e = 1 ∨ e = -1)

theorem stOk_mono {st : Option (ℤ × ℤ)} {t t' : ℕ} (h : t ≤ t')
    (hst : stOk st t) : stOk st t' := by
  cases st with
  | none => trivial
  | some ce =>
    obtain ⟨c, e⟩ := ce
    obtain ⟨h1, h2, h3⟩ := hst
    exact ⟨h1, lt_of_lt_of_le h2 (Nat.pow_le_pow_right (by omega) h), h3⟩

/-- If no bit is set, the accumulator is never touched. -/
theorem scalarLoop_all_false {ec : Curve} :
    ∀ (bits : List Bool) (res pc : Point), (∀ b ∈ bits, b = false) →
      scalarLoop bits res pc ec = res := by
  intro bits
  induction bits with
  | nil => intro res pc _; rfl
  | cons b rest ih =>
    intro res pc hall
    have hb : b = false := hall b (List.mem_cons_self b rest)
    subst hb
    simp only [scalarLoop, if_neg (by simp : ¬(false = true))]
    exact ih _ _ fun b hb => hall b (List.mem_cons_of_mem _ hb)

/-- `scalar_mult` of the `(0,0)` sentinel is `(0,0)`: the running copy
stays `(0,0)` (doubling fixes it) and adding it returns the accumulator
unchanged. -/
theorem scalarLoop_id_base {ec : Curve} (hp : 1 < ec.prime)
    (ha : InField ec.prime ec.a) :
    ∀ (bits : List Bool), scalarLoop bits ⟨0, 0⟩ ⟨0, 0⟩ ec = ⟨0, 0⟩ := by
  intro bits
  induction bits with
  | nil => rfl
  | cons b rest ih =>
    simp only [scalarLoop]
    have hadd : point_add ⟨0, 0⟩ (⟨0, 0⟩ : Point) ec = ⟨0, 0⟩ := by
      unfold point_add
      rw [if_pos ⟨rfl, rfl⟩]
    have hdou : point_double (⟨0, 0⟩ : Point) ec = ⟨0, 0⟩ := point_double_id hp ha
    rw [hdou]
    cases b with
    | true => rw [if_pos rfl, hadd]; exact ih
    | false => rw [if_neg (by simp)]; exact ih

theorem scalar_mult_id_base {ec : Curve} (hp : 1 < ec.prime)
    (ha : InField ec.prime ec.a) (k : ℤ) :
    scalar_mult ⟨0, 0⟩ k ec = ⟨0, 0⟩ :=
  scalarLoop_id_base hp ha (bitsC k)

theorem scalar_mult_zero (P : Point) (ec : Curve) :
    scalar_mult P 0 ec = ⟨0, 0⟩ := by
  unfold scalar_mult bitsC
  norm_num [lsbBits]
  exact scalarLoop_all_false [false] _ _ (by simp)

theorem neg_one_pow_pm (t : ℕ) : ((-1 : ℤ)) ^ t = 1 ∨ ((-1 : ℤ)) ^ t = -1 := by
  rcases Nat.even_or_odd t with h | h
  · exact Or.inl h.neg_one_pow
  · exact Or.inr h.neg_one_pow

theorem natAbs_neg_two_pow (t : ℕ) : ((-2 : ℤ) ^ t).natAbs = 2 ^ t := by
  rw [Int.natAbs_pow]
  norm_num

/-- Main loop invariant: as long as the base x-coordinate is "robust"
(no small nonzero integer multiple of it vanishes mod p), the loop tracks
the coefficient automaton exactly. -/
theorem scalarLoop_char {ec : Curve} (hp : 1 < ec.prime)
    (ha : InField ec.prime ec.a) (x0 y0 : ℤ)
    (hx : InField ec.prime x0) (hy : InField ec.prime y0) (L : ℕ)
    (hrob : ∀ D : ℤ, D ≠ 0 → D.natAbs < 2 ^ (L + 1) → (D * x0) % ec.prime ≠ 0) :
    ∀ (bits : List Bool) (t : ℕ) (st : Option (ℤ × ℤ)),
      t + bits.length ≤ L → stOk st t →
      scalarLoop bits (stPoint ec.prime x0 y0 st)
          ⟨((-2) ^ t * x0) % ec.prime, ((-1) ^ t * y0) % ec.prime⟩ ec
        = stPoint ec.prime x0 y0 (cAcc bits t st)
      ∧ stOk (cAcc bits t st) (t + bits.length) := by
  have hp0 : (0 : ℤ) < ec.prime := by omega
  have hpne : ec.prime ≠ 0 := by omega
  have hmem : ∀ z : ℤ, InField ec.prime (z % ec.prime) := fun z =>
    ⟨Int.emod_nonneg _ hpne, Int.emod_lt_of_pos _ hp0⟩
  have hdrop : ∀ z : ℤ, z % ec.prime ≡ z [ZMOD ec.prime] := fun z =>
    Int.emod_emod_of_dvd z dvd_rfl
  intro bits
  induction bits with
  | nil =>
    intro t st hL hst
    exact ⟨rfl, hst⟩
  | cons b rest ih =>
    intro t st hL hst
    have htL : t < L + 1 := by
      have := hL
      simp only [List.length_cons] at this
      omega
    have hpcx : ((-2 : ℤ) ^ t * x0) % ec.prime ≠ 0 := by
      apply hrob
      · exact pow_ne_zero t (by norm_num)
      · rw [natAbs_neg_two_pow]
        exact Nat.pow_lt_pow_right (by omega) htL
    -- the doubled running copy advances the exponent by one
    have hdouble : point_double
        (⟨((-2) ^ t * x0) % ec.prime, ((-1) ^ t * y0) % ec.prime⟩ : Point) ec
        = ⟨((-2) ^ (t + 1) * x0) % ec.prime, ((-1) ^ (t + 1) * y0) % ec.prime⟩ := by
      rw [point_double_char hp ha _ (hmem _) (hmem _)]
      have hx1 : (-(2 * (((-2 : ℤ) ^ t * x0) % ec.prime))) % ec.prime
          = ((-2) ^ (t + 1) * x0) % ec.prime := by
        have : (-(2 * (((-2 : ℤ) ^ t * x0) % ec.prime)))
            ≡ (-2) ^ (t + 1) * x0 [ZMOD ec.prime] := by
          calc (-(2 * (((-2 : ℤ) ^ t * x0) % ec.prime)))
              ≡ -(2 * ((-2 : ℤ) ^ t * x0)) [ZMOD ec.prime] :=
                ((hdrop _).mul_left 2).neg
            _ = (-2) ^ (t + 1) * x0 := by ring
        exact this
      have hy1 : (-(((-1 : ℤ) ^ t * y0) % ec.prime)) % ec.prime
          = ((-1) ^ (t + 1) * y0) % ec.prime := by
        have : (-(((-1 : ℤ) ^ t * y0) % ec.prime))
            ≡ (-1) ^ (t + 1) * y0 [ZMOD ec.prime] := by
          calc (-(((-1 : ℤ) ^ t * y0) % ec.prime))
              ≡ -((-1 : ℤ) ^ t * y0) [ZMOD ec.prime] := (hdrop _).neg
            _ = (-1) ^ (t + 1) * y0 := by ring
        exact this
      rw [hx1, hy1]
    have hLrest : (t + 1) + rest.length ≤ L := by
      have := hL
      simp only [List.length_cons] at this
      omega
    have hlen : t + (b :: rest).length = (t + 1) + rest.length := by
      simp only [List.length_cons]
      omega
    cases b with
    | false =>
      simp only [scalarLoop, if_neg (by simp : ¬(false = true))]
      rw [hdouble]
      have := ih (t + 1) st hLrest (stOk_mono (by omega) hst)
      simp only [cAcc, if_neg (by simp : ¬(false = true))]
      rw [hlen]
      exact this
    | true =>
      simp only [scalarLoop, if_pos rfl]
      cases st with
      | none =>
        -- accumulator still (0,0): the add returns the running copy
        have hadd : point_add
            (⟨((-2) ^ t * x0) % ec.prime, ((-1) ^ t * y0) % ec.prime⟩ : Point)
            (stPoint ec.prime x0 y0 none) ec
            = stPoint ec.prime x0 y0 (some ((-2) ^ t, (-1) ^ t)) := by
          show point_add _ (⟨0, 0⟩ : Point) ec = _
          unfold point_add
          rw [if_neg (by intro h; exact hpcx h.1), if_pos ⟨rfl, rfl⟩]
          rfl
        rw [hadd, hdouble]
        have hstOk' : stOk (some ((-2 : ℤ) ^ t, (-1 : ℤ) ^ t)) (t + 1) := by
          refine ⟨pow_ne_zero t (by norm_num), ?_, neg_one_pow_pm t⟩
          rw [natAbs_neg_two_pow]
          exact Nat.pow_lt_pow_right (by omega) (by omega)
        have := ih (t + 1) (some ((-2) ^ t, (-1) ^ t)) hLrest hstOk'
        simp only [cAcc, if_pos rfl]
        rw [hlen]
        exact this
      | some ce =>
        obtain ⟨c, e⟩ := ce
        obtain ⟨hc0, hcb, he⟩ := hst
        have hresx : (c * x0) % ec.prime ≠ 0 := by
          apply hrob c hc0
          calc c.natAbs < 2 ^ t := hcb
            _ < 2 ^ (L + 1) := Nat.pow_lt_pow_right (by omega) (by omega)
        have hDne : (-2 : ℤ) ^ t - c ≠ 0 := by
          intro h
          have : c = (-2 : ℤ) ^ t := by omega
          rw [this, natAbs_neg_two_pow] at hcb
          omega
        have hxne : ((-2 : ℤ) ^ t * x0) % ec.prime ≠ (c * x0) % ec.prime := by
          intro h
          have hmodeq : (-2 : ℤ) ^ t * x0 ≡ c * x0 [ZMOD ec.prime] := h
          have hzero : (((-2 : ℤ) ^ t - c) * x0) % ec.prime = 0 := by
            have h2 : ((-2 : ℤ) ^ t * x0 - c * x0)
                ≡ c * x0 - c * x0 [ZMOD ec.prime] :=
              hmodeq.sub (Int.ModEq.refl (c * x0))
            have h3 : (((-2 : ℤ) ^ t - c) * x0) ≡ 0 [ZMOD ec.prime] := by
              calc (((-2 : ℤ) ^ t - c) * x0)
                  = (-2 : ℤ) ^ t * x0 - c * x0 := by ring
                _ ≡ c * x0 - c * x0 [ZMOD ec.prime] := h2
                _ = 0 := by ring
            have h4 : (((-2 : ℤ) ^ t - c) * x0) % ec.prime = 0 % ec.prime := h3
            simpa using h4
          apply hrob ((-2) ^ t - c) hDne ?_ hzero
          calc ((-2 : ℤ) ^ t - c).natAbs
              ≤ ((-2 : ℤ) ^ t).natAbs + c.natAbs := Int.natAbs_sub_le _ _
            _ < 2 ^ t + 2 ^ t := by rw [natAbs_neg_two_pow]; omega
            _ = 2 ^ (t + 1) := by ring
            _ ≤ 2 ^ (L + 1) := Nat.pow_le_pow_right (by omega) (by omega)
        have hadd : point_add
            (⟨((-2) ^ t * x0) % ec.prime, ((-1) ^ t * y0) % ec.prime⟩ : Point)
            (stPoint ec.prime x0 y0 (some (c, e))) ec
            = stPoint ec.prime x0 y0 (some (-((-2) ^ t + c), -((-1) ^ t))) := by
          show point_add _ (⟨(c * x0) % ec.prime, (e * y0) % ec.prime⟩ : Point) ec = _
          rw [point_add_char hp _ _ (hmem _) (hmem _) (hmem _) (hmem _)
            (by intro h; exact hpcx h.1) (by intro h; exact hresx h.1) hxne]
          show (⟨_, _⟩ : Point) = ⟨(-((-2) ^ t + c) * x0) % ec.prime,
            (-((-1) ^ t) * y0) % ec.prime⟩
          have hx1 : (-((((-2 : ℤ) ^ t * x0) % ec.prime + (c * x0) % ec.prime)))
              % ec.prime = (-((-2) ^ t + c) * x0) % ec.prime := by
            have : (-((((-2 : ℤ) ^ t * x0) % ec.prime + (c * x0) % ec.prime)))
                ≡ -((-2) ^ t + c) * x0 [ZMOD ec.prime] := by
              calc (-((((-2 : ℤ) ^ t * x0) % ec.prime + (c * x0) % ec.prime)))
                  ≡ -(((-2 : ℤ) ^ t * x0) + c * x0) [ZMOD ec.prime] :=
                    ((hdrop _).add (hdrop _)).neg
                _ = -((-2) ^ t + c) * x0 := by ring
            exact this
          have hy1 : (-(((-1 : ℤ) ^ t * y0) % ec.prime)) % ec.prime
              = (-((-1) ^ t) * y0) % ec.prime := by
            have : (-(((-1 : ℤ) ^ t * y0) % ec.prime))
                ≡ -((-1) ^ t) * y0 [ZMOD ec.prime] := by
              calc (-(((-1 : ℤ) ^ t * y0) % ec.prime))
                  ≡ -((-1 : ℤ) ^ t * y0) [ZMOD ec.prime] := (hdrop _).neg
                _ = -((-1) ^ t) * y0 := by ring
            exact this
          rw [hx1, hy1]
        rw [hadd, hdouble]
        have hstOk' : stOk (some (-((-2 : ℤ) ^ t + c), -((-1 : ℤ) ^ t))) (t + 1) := by
          refine ⟨?_, ?_, ?_⟩
          · intro h
            have : c = -((-2 : ℤ) ^ t) := by omega
            rw [this] at hcb
            rw [Int.natAbs_neg, natAbs_neg_two_pow] at hcb
            omega
          · rw [Int.natAbs_neg]
            calc ((-2 : ℤ) ^ t + c).natAbs
                ≤ ((-2 : ℤ) ^ t).natAbs + c.natAbs := Int.natAbs_add_le _ _
              _ < 2 ^ t + 2 ^ t := by rw [natAbs_neg_two_pow]; omega
              _ = 2 ^ (t + 1) := by ring
          · rcases neg_one_pow_pm t with h | h <;> rw [h]
            · exact Or.inr rfl
            · exact Or.inl (by norm_num)
        have := ih (t + 1) (some (-((-2) ^ t + c), -((-1) ^ t))) hLrest hstOk'
        simp only [cAcc, if_pos rfl]
        rw [hlen]
        exact this

/-! ### Kernel-friendly modular exponentiation and Lucas certificates

The robustness hypothesis of `scalarLoop_char` is discharged from the
primality of the two field moduli, which we certify with
`lucas_primality` and hand-computed Pratt data.  Exponentiation is
tail-recursive so that its kernel evaluation is linear. -/

/-- MSB-first value of a bit list. -/
def valMSB : List Bool → ℕ
  | [] => 0
  | b :: rest => (if b then 1 else 0) * 2 ^ rest.length + valMSB rest

/-- Left-to-right square-and-multiply, processing MSB-first bits. -/
def powModBits : List Bool → ℕ → ℕ → ℕ → ℕ
  | [], _, r, p => r % p
  | b :: rest, a, r, p =>
      powModBits rest a (if b then r * r % p * a % p else r * r % p) p

/-- `a ^ e mod p` via square-and-multiply over `e`'s bits. -/
def powMod (a e p : ℕ) : ℕ := powModBits (lsbBits e).reverse a 1 p

theorem powModBits_eq {p : ℕ} (hp : 0 < p) (a : ℕ) :
    ∀ (bs : List Bool) (r : ℕ),
      powModBits bs a r p = (r ^ 2 ^ bs.length * a ^ valMSB bs) % p := by
  have hdrop : ∀ z : ℕ, z % p ≡ z [MOD p] := fun z => Nat.mod_mod_of_dvd z dvd_rfl
  intro bs
  induction bs with
  | nil =>
    intro r
    simp [powModBits, valMSB]
  | cons b rest ih =>
    intro r
    have hv1 : valMSB (true :: rest) = 2 ^ rest.length + valMSB rest := by
      show (if true then 1 else 0) * 2 ^ rest.length + valMSB rest = _
      norm_num
    have hv0 : valMSB (false :: rest) = valMSB rest := by
      show (if false then 1 else 0) * 2 ^ rest.length + valMSB rest = _
      norm_num
    have hlen : 2 ^ (b :: rest).length = 2 ^ rest.length * 2 := by
      simp [List.length_cons, pow_succ]
    cases b with
    | true =>
      show powModBits rest a (r * r % p * a % p) p = _
      rw [ih]
      have h2 : (r * r % p * a % p) ^ 2 ^ rest.length * a ^ valMSB rest
          ≡ (r * r * a) ^ 2 ^ rest.length * a ^ valMSB rest [MOD p] := by
        have hb : (r * r % p * a % p) ≡ r * r * a [MOD p] := by
          calc (r * r % p * a % p) ≡ r * r % p * a [MOD p] := hdrop _
            _ ≡ r * r * a [MOD p] := (hdrop _).mul_right a
        exact (hb.pow _).mul_right _
      calc ((r * r % p * a % p) ^ 2 ^ rest.length * a ^ valMSB rest) % p
          = ((r * r * a) ^ 2 ^ rest.length * a ^ valMSB rest) % p := h2
        _ = (r ^ 2 ^ (true :: rest).length * a ^ valMSB (true :: rest)) % p := by
            rw [hv1, hlen]
            congr 1
            rw [pow_add, pow_mul]
            ring
    | false =>
      show powModBits rest a (r * r % p) p = _
      rw [ih]
      have h2 : (r * r % p) ^ 2 ^ rest.length * a ^ valMSB rest
          ≡ (r * r) ^ 2 ^ rest.length * a ^ valMSB rest [MOD p] :=
        ((hdrop _).pow _).mul_right _
      calc ((r * r % p) ^ 2 ^ rest.length * a ^ valMSB rest) % p
          = ((r * r) ^ 2 ^ rest.length * a ^ valMSB rest) % p := h2
        _ = (r ^ 2 ^ (false :: rest).length * a ^ valMSB (false :: rest)) % p := by
            rw [hv0, hlen]
            congr 1
            rw [pow_mul]
            ring

theorem valMSB_append_one (xs : List Bool) (b : Bool) :
    valMSB (xs ++ [b]) = 2 * valMSB xs + (if b then 1 else 0) := by
  induction xs with
  | nil => cases b <;> simp [valMSB]
  | cons c cs ihc =>
    have hlen : (cs ++ [b]).length = cs.length + 1 := by simp
    calc valMSB (c :: (cs ++ [b]))
        = (if c then 1 else 0) * 2 ^ (cs ++ [b]).length + valMSB (cs ++ [b]) := rfl
      _ = (if c then 1 else 0) * (2 ^ cs.length * 2)
            + (2 * valMSB cs + (if b then 1 else 0)) := by
          rw [hlen, pow_succ, ihc]
      _ = 2 * ((if c then 1 else 0) * 2 ^ cs.length + valMSB cs)
            + (if b then 1 else 0) := by ring
      _ = 2 * valMSB (c :: cs) + (if b then 1 else 0) := rfl

theorem valMSB_reverse (l : List Bool) : valMSB l.reverse = bitsVal l := by
  induction l with
  | nil => rfl
  | cons b rest ih =>
    rw [List.reverse_cons, bitsVal, valMSB_append_one, ih]
    omega

theorem powMod_eq (a e p : ℕ) (hp : 0 < p) : powMod a e p = a ^ e % p := by
  unfold powMod
  rw [powModBits_eq hp, one_pow, one_mul, valMSB_reverse, bitsVal_lsbBits]

/-- Lucas primality with kernel-checkable side conditions: a witness `a`,
the full prime factorization `fs` of `p - 1`, `a^(p-1) ≡ 1` and
`a^((p-1)/q) ≢ 1` for every listed factor. -/
theorem lucas_cert (p a : ℕ) (fs : List ℕ) (hp : 2 ≤ p)
    (hfs : ∀ x ∈ fs, Nat.Prime x)
    (hprod : p - 1 = fs.prod)
    (hpow : powMod a (p - 1) p = 1)
    (hne : ∀ q ∈ fs, powMod a ((p - 1) / q) p ≠ 1) : p.Prime := by
  have hp0 : 0 < p := by omega
  apply lucas_primality p (a : ZMod p)
  · have h1 : a ^ (p - 1) % p = 1 % p := by
      rw [← powMod_eq a (p - 1) p hp0, hpow]
      exact (Nat.mod_eq_of_lt (by omega)).symm
    have h2 : ((a ^ (p - 1) : ℕ) : ZMod p) = ((1 : ℕ) : ZMod p) :=
      (ZMod.natCast_eq_natCast_iff _ _ _).mpr h1
    push_cast at h2
    exact h2
  · intro q hq hdvd
    have hqfs : q ∈ fs := by
      rw [hprod] at hdvd
      obtain ⟨x, hx, hqx⟩ := hq.prime.dvd_prod_iff.mp hdvd
      rwa [(Nat.prime_dvd_prime_iff_eq hq (hfs x hx)).mp hqx]
    intro hcontra
    apply hne q hqfs
    have h2 : ((a ^ ((p - 1) / q) : ℕ) : ZMod p) = ((1 : ℕ) : ZMod p) := by
      push_cast
      exact hcontra
    have h3 : a ^ ((p - 1) / q) % p = 1 % p :=
      (ZMod.natCast_eq_natCast_iff _ _ _).mp h2
    rw [powMod_eq a _ p hp0, h3]
    exact Nat.mod_eq_of_lt (by omega)

/-! Pratt/Lucas certificate chain for the secp192k1 field prime. -/

theorem prime_3651619 : Nat.Prime 3651619 := by
  apply lucas_cert 3651619 2 [2, 3, 23, 47, 563] (by norm_num)
  · intro x hx
    simp only [List.mem_cons, List.not_mem_nil, or_false] at hx
    rcases hx with rfl | rfl | rfl | rfl | rfl
    · norm_num
    · norm_num
    · norm_num
    · norm_num
    · norm_num
  · decide
  · decide
  · decide

theorem prime_8473813 : Nat.Prime 8473813 := by
  apply lucas_cert 8473813 2 [2, 2, 3, 706151] (by norm_num)
  · intro x hx
    simp only [List.mem_cons, List.not_mem_nil, or_false] at hx
    rcases hx with rfl | rfl | rfl | rfl
    · norm_num
    · norm_num
    · norm_num
    · norm_num
  · decide
  · decide
  · decide

theorem prime_14606477 : Nat.Prime 14606477 := by
  apply lucas_cert 14606477 2 [2, 2, 3651619] (by norm_num)
  · intro x hx
    simp only [List.mem_cons, List.not_mem_nil, or_false] at hx
    rcases hx with rfl | rfl | rfl
    · norm_num
    · norm_num
    · exact prime_3651619
  · decide
  · decide
  · decide

theorem prime_2307823367 : Nat.Prime 2307823367 := by
  apply lucas_cert 2307823367 5 [2, 79, 14606477] (by norm_num)
  · intro x hx
    simp only [List.mem_cons, List.not_mem_nil, or_false] at hx
    rcases hx with rfl | rfl | rfl
    · norm_num
    · norm_num
    · exact prime_14606477
  · decide
  · decide
  · decide

theorem prime_11113956389 : Nat.Prime 11113956389 := by
  apply lucas_cert 11113956389 2 [2, 2, 7057, 393721] (by norm_num)
  · intro x hx
    simp only [List.mem_cons, List.not_mem_nil, or_false] at hx
    rcases hx with rfl | rfl | rfl | rfl
    · norm_num
    · norm_num
    · norm_num
    · norm_num
  · decide
  · decide
  · decide

theorem prime_16189543961 : Nat.Prime 16189543961 := by
  apply lucas_cert 16189543961 6 [2, 2, 2, 5, 61, 2473, 2683] (by norm_num)
  · intro x hx
    simp only [List.mem_cons, List.not_mem_nil, or_false] at hx
    rcases hx with rfl | rfl | rfl | rfl | rfl | rfl | rfl
    · norm_num
    · norm_num
    · norm_num
    · norm_num
    · norm_num
    · norm_num
    · norm_num
  · decide
  · decide
  · decide

theorem prime_138580737803 : Nat.Prime 138580737803 := by
  apply lucas_cert 138580737803 2 [2, 13, 17, 37, 8473813] (by norm_num)
  · intro x hx
    simp only [List.mem_cons, List.not_mem_nil, or_false] at hx
    rcases hx with rfl | rfl | rfl | rfl | rfl
    · norm_num
    · norm_num
    · norm_num
    · norm_num
    · exact prime_8473813
  · decide
  · decide
  · decide

theorem prime_1295233555201613 : Nat.Prime 1295233555201613 := by
  apply lucas_cert 1295233555201613 2 [2, 2, 13, 43, 251, 2307823367] (by norm_num)
  · intro x hx
    simp only [List.mem_cons, List.not_mem_nil, or_false] at hx
    rcases hx with rfl | rfl | rfl | rfl | rfl | rfl
    · norm_num
    · norm_num
    · norm_num
    · norm_num
    · norm_num
    · exact prime_2307823367
  · decide
  · decide
  · decide

theorem prime_10489845818524887021689201254173392444641 : Nat.Prime 10489845818524887021689201254173392444641 := by
  apply lucas_cert 10489845818524887021689201254173392444641 13 [2, 2, 2, 2, 2, 3, 5, 281, 3119, 11113956389, 16189543961, 138580737803] (by norm_num)
  · intro x hx
    simp only [List.mem_cons, List.not_mem_nil, or_false] at hx
    rcases hx with rfl | rfl | rfl | rfl | rfl | rfl | rfl | rfl | rfl | rfl | rfl | rfl
    · norm_num
    · norm_num
    · norm_num
    · norm_num
    · norm_num
    · norm_num
    · norm_num
    · norm_num
    · norm_num
    · exact prime_11113956389
    · exact prime_16189543961
    · exact prime_138580737803
  · decide
  · decide
  · decide

theorem prime_secp192k1 : Nat.Prime 6277101735386680763835789423207666416102355444459739541047 := by
  apply lucas_cert 6277101735386680763835789423207666416102355444459739541047 3 [2, 3, 7, 11, 1295233555201613, 10489845818524887021689201254173392444641] (by norm_num)
  · intro x hx
    simp only [List.mem_cons, List.not_mem_nil, or_false] at hx
    rcases hx with rfl | rfl | rfl | rfl | rfl | rfl
    · norm_num
    · norm_num
    · norm_num
    · norm_num
    · exact prime_1295233555201613
    · exact prime_10489845818524887021689201254173392444641
  · decide
  · decide
  · decide


/-! ### Robustness of base x-coordinates, from primality -/

theorem int_dvd_emod_iff {p z : ℤ} : p ∣ z % p ↔ p ∣ z := by
  constructor
  · intro h
    have : z = z % p + p * (z / p) := by
      rw [Int.emod_def]
      ring
    rw [this]
    exact dvd_add h (Dvd.intro _ rfl)
  · intro h
    rw [Int.emod_def]
    exact dvd_sub h (Dvd.intro _ rfl)

theorem not_dvd_of_small {p D : ℤ} (hD : D ≠ 0) (h : D.natAbs < p.natAbs) :
    ¬ p ∣ D := by
  intro hdvd
  have h1 : p.natAbs ∣ D.natAbs := Int.natAbs_dvd_natAbs.mpr hdvd
  have h2 : D.natAbs ≠ 0 := Int.natAbs_ne_zero.mpr hD
  have := Nat.le_of_dvd (by omega) h1
  omega

theorem robust_of_prime {p x0 : ℤ} {B : ℕ} (hprime : Prime p)
    (hndvd : ¬ p ∣ x0) (hB : 2 ^ B ≤ p.natAbs) :
    ∀ D : ℤ, D ≠ 0 → D.natAbs < 2 ^ B → (D * x0) % p ≠ 0 := by
  intro D hD hDb hmod
  have hdvd : p ∣ D * x0 := Int.dvd_of_emod_eq_zero hmod
  rcases hprime.dvd_or_dvd hdvd with h | h
  · exact not_dvd_of_small hD (by omega) h
  · exact hndvd h

/-! ### Top-level characterization of `scalar_mult` -/

theorem bitsC_of_nonneg {k : ℤ} (hk : 0 ≤ k) : bitsC k = lsbBits k.natAbs := by
  unfold bitsC
  rw [if_neg (by omega), List.append_nil]

theorem bitsVal_all_false : ∀ (bits : List Bool), (∀ b ∈ bits, b = false) →
    bitsVal bits = 0 := by
  intro bits
  induction bits with
  | nil => intro _; rfl
  | cons b rest ih =>
    intro h
    have hb : b = false := h b (List.mem_cons_self b rest)
    subst hb
    simp only [bitsVal, if_neg (by simp : ¬(false = true)),
      ih fun b hb => h b (List.mem_cons_of_mem _ hb)]

theorem eq_zero_of_bitsC_all_false {k : ℤ} (hk : 0 ≤ k)
    (h : ∀ b ∈ bitsC k, b = false) : k = 0 := by
  have h1 : bitsVal (bitsC k) = k.natAbs := bitsVal_bitsC k
  rw [bitsVal_all_false _ h] at h1
  omega

theorem cAcc_some_ne_none :
    ∀ (bits : List Bool) (t : ℕ) (c e : ℤ), cAcc bits t (some (c, e)) ≠ none := by
  intro bits
  induction bits with
  | nil => intro t c e h; exact Option.noConfusion h
  | cons b rest ih =>
    intro t c e
    cases b with
    | true =>
      simp only [cAcc, if_pos rfl]
      exact ih _ _ _
    | false =>
      simp only [cAcc, if_neg (by simp : ¬(false = true))]
      exact ih _ _ _

theorem cAcc_none_all_false :
    ∀ (bits : List Bool) (t : ℕ), cAcc bits t none = none →
      ∀ b ∈ bits, b = false := by
  intro bits
  induction bits with
  | nil => intro t _ b hb; exact absurd hb (List.not_mem_nil b)
  | cons b rest ih =>
    intro t hnone c hc
    cases b with
    | true =>
      simp only [cAcc, if_pos rfl] at hnone
      exact absurd hnone (cAcc_some_ne_none _ _ _ _)
    | false =>
      simp only [cAcc, if_neg (by simp : ¬(false = true))] at hnone
      rcases List.mem_cons.mp hc with h | h
      · exact h
      · exact ih _ hnone c h

theorem bitsAux_length : ∀ (f n L : ℕ), n < 2 ^ L → (bitsAux f n).length ≤ L := by
  intro f
  induction f with
  | zero => intro n L _; simp [bitsAux]
  | succ f ih =>
    intro n L hn
    unfold bitsAux
    split
    · simp
    · rename_i hne
      cases L with
      | zero => omega
      | succ L' =>
        have h2 : n / 2 < 2 ^ L' := by
          rw [pow_succ] at hn
          omega
        simp only [List.length_cons]
        have := ih (n / 2) L' h2
        omega

theorem lsbBits_length {n L : ℕ} (hn : n < 2 ^ L) :
    (lsbBits n).length ≤ L + 1 := by
  unfold lsbBits
  split
  · simp
  · have := bitsAux_length n n L hn
    omega

/-- Full characterization of `scalar_mult` on a robust base point. -/
theorem scalar_mult_char {ec : Curve} (hp : 1 < ec.prime)
    (ha : InField ec.prime ec.a) (x0 y0 : ℤ)
    (hx : InField ec.prime x0) (hy : InField ec.prime y0) (L : ℕ)
    (hrob : ∀ D : ℤ, D ≠ 0 → D.natAbs < 2 ^ (L + 1) → (D * x0) % ec.prime ≠ 0)
    (k : ℤ) (hlen : (bitsC k).length ≤ L) :
    scalar_mult ⟨x0, y0⟩ k ec = stPoint ec.prime x0 y0 (cAcc (bitsC k) 0 none)
    ∧ stOk (cAcc (bitsC k) 0 none) L := by
  have h := scalarLoop_char hp ha x0 y0 hx hy L hrob (bitsC k) 0 none
    (by omega) trivial
  have hpc : (⟨((-2 : ℤ)) ^ 0 * x0 % ec.prime, ((-1 : ℤ)) ^ 0 * y0 % ec.prime⟩ : Point)
      = ⟨x0, y0⟩ := by
    simp only [pow_zero, one_mul]
    rw [Int.emod_eq_of_lt hx.1 hx.2, Int.emod_eq_of_lt hy.1 hy.2]
  rw [hpc] at h
  exact ⟨h.1, stOk_mono (by omega) h.2⟩

/-! Pratt/Lucas certificate chain for the secp192r1 field prime. -/

theorem prime_8413201 : Nat.Prime 8413201 := by
  apply lucas_cert 8413201 29 [2, 2, 2, 2, 3, 3, 3, 5, 5, 19, 41] (by norm_num)
  · intro x hx
    simp only [List.mem_cons, List.not_mem_nil, or_false] at hx
    rcases hx with rfl | rfl | rfl | rfl | rfl | rfl | rfl | rfl | rfl | rfl | rfl
    · norm_num
    · norm_num
    · norm_num
    · norm_num
    · norm_num
    · norm_num
    · norm_num
    · norm_num
    · norm_num
    · norm_num
    · norm_num
  · decide
  · decide
  · decide

theorem prime_11393611 : Nat.Prime 11393611 := by
  apply lucas_cert 11393611 10 [2, 3, 5, 379787] (by norm_num)
  · intro x hx
    simp only [List.mem_cons, List.not_mem_nil, or_false] at hx
    rcases hx with rfl | rfl | rfl | rfl
    · norm_num
    · norm_num
    · norm_num
    · norm_num
  · decide
  · decide
  · decide

theorem prime_252396031 : Nat.Prime 252396031 := by
  apply lucas_cert 252396031 3 [2, 3, 5, 8413201] (by norm_num)
  · intro x hx
    simp only [List.mem_cons, List.not_mem_nil, or_false] at hx
    rcases hx with rfl | rfl | rfl | rfl
    · norm_num
    · norm_num
    · norm_num
    · exact prime_8413201
  · decide
  · decide
  · decide

theorem prime_455827231987 : Nat.Prime 455827231987 := by
  apply lucas_cert 455827231987 2 [2, 3, 7, 43, 252396031] (by norm_num)
  · intro x hx
    simp only [List.mem_cons, List.not_mem_nil, or_false] at hx
    rcases hx with rfl | rfl | rfl | rfl | rfl
    · norm_num
    · norm_num
    · norm_num
    · norm_num
    · exact prime_252396031
  · decide
  · decide
  · decide

theorem prime_108341181769254293 : Nat.Prime 108341181769254293 := by
  apply lucas_cert 108341181769254293 2 [2, 2, 17, 43, 2477, 54251, 275729] (by norm_num)
  · intro x hx
    simp only [List.mem_cons, List.not_mem_nil, or_false] at hx
    rcases hx with rfl | rfl | rfl | rfl | rfl | rfl | rfl
    · norm_num
    · norm_num
    · norm_num
    · norm_num
    · norm_num
    · norm_num
    · norm_num
  · decide
  · decide
  · decide

theorem prime_5933177618131140283 : Nat.Prime 5933177618131140283 := by
  apply lucas_cert 5933177618131140283 2 [2, 3, 3, 723127, 455827231987] (by norm_num)
  · intro x hx
    simp only [List.mem_cons, List.not_mem_nil, or_false] at hx
    rcases hx with rfl | rfl | rfl | rfl | rfl
    · norm_num
    · norm_num
    · norm_num
    · norm_num
    · exact prime_455827231987
  · decide
  · decide
  · decide

theorem prime_288626509448065367648032903 : Nat.Prime 288626509448065367648032903 := by
  apply lucas_cert 288626509448065367648032903 6 [2, 3, 19, 19, 37, 607, 5933177618131140283] (by norm_num)
  · intro x hx
    simp only [List.mem_cons, List.not_mem_nil, or_false] at hx
    rcases hx with rfl | rfl | rfl | rfl | rfl | rfl | rfl
    · norm_num
    · norm_num
    · norm_num
    · norm_num
    · norm_num
    · norm_num
    · exact prime_5933177618131140283
  · decide
  · decide
  · decide

theorem prime_secp192r1 : Nat.Prime 6277101735386680763835789423207666416083908700390324961279 := by
  apply lucas_cert 6277101735386680763835789423207666416083908700390324961279 11 [2, 59, 149309, 11393611, 108341181769254293, 288626509448065367648032903] (by norm_num)
  · intro x hx
    simp only [List.mem_cons, List.not_mem_nil, or_false] at hx
    rcases hx with rfl | rfl | rfl | rfl | rfl | rfl
    · norm_num
    · norm_num
    · norm_num
    · exact prime_11393611
    · exact prime_108341181769254293
    · exact prime_288626509448065367648032903
  · decide
  · decide
  · decide


/-! ### Round-trip of the SEC1 point encoding -/

/-- MSB-first numeric value of a hex digit string (digits assumed valid). -/
def hexValList : List Char → ℕ
  | [] => 0
  | c :: rest => (hexVal c).getD 0 * 16 ^ rest.length + hexValList rest

/-- All characters are hex digits. -/
def AllHex (cs : List Char) : Prop := ∀ c ∈ cs, (hexVal c).isSome

theorem parseHexAux_spec : ∀ (cs : List Char) (acc : ℕ), AllHex cs →
    parseHexAux cs acc = some (acc * 16 ^ cs.length + hexValList cs) := by
  intro cs
  induction cs with
  | nil => intro acc _; simp [parseHexAux, hexValList]
  | cons c rest ih =>
    intro acc hall
    have hc : (hexVal c).isSome := hall c (List.mem_cons_self c rest)
    obtain ⟨v, hv⟩ := Option.isSome_iff_exists.mp hc
    simp only [parseHexAux, hv]
    rw [ih _ fun d hd => hall d (List.mem_cons_of_mem _ hd)]
    congr 1
    simp only [hexValList, hv, Option.getD_some, List.length_cons, pow_succ]
    ring

theorem hexVal_hexDigit {d : ℕ} (hd : d < 16) : hexVal (hexDigit d) = some d := by
  interval_cases d <;> decide

theorem hexAux_allHex : ∀ (f n : ℕ) (acc : List Char), AllHex acc →
    AllHex (hexAux f n acc) := by
  intro f
  induction f with
  | zero => intro n acc h; exact h
  | succ f ih =>
    intro n acc h
    unfold hexAux
    split
    · exact h
    · apply ih
      intro c hc
      rcases List.mem_cons.mp hc with h1 | h1
      · subst h1
        rw [hexVal_hexDigit (Nat.mod_lt _ (by omega))]
        rfl
      · exact h c h1

theorem hexAux_val : ∀ (f n : ℕ) (acc : List Char), n < 16 ^ f →
    hexValList (hexAux f n acc) = n * 16 ^ acc.length + hexValList acc := by
  intro f
  induction f with
  | zero =>
    intro n acc hn
    interval_cases n
    simp [hexAux]
  | succ f ih =>
    intro n acc hn
    unfold hexAux
    split
    · rename_i h; subst h; simp
    · rename_i h
      have h2 : n / 16 < 16 ^ f := by
        rw [pow_succ] at hn
        omega
      rw [ih _ _ h2]
      simp only [hexValList, hexVal_hexDigit (Nat.mod_lt n (by omega : (0:ℕ) < 16)),
        Option.getD_some, List.length_cons, pow_succ]
      conv_rhs => rw [← Nat.div_add_mod n 16]
      ring

theorem hexAux_length_ge : ∀ (f n : ℕ) (acc : List Char),
    acc.length ≤ (hexAux f n acc).length := by
  intro f
  induction f with
  | zero => intro n acc; exact le_rfl
  | succ f ih =>
    intro n acc
    unfold hexAux
    split
    · exact le_rfl
    · calc acc.length ≤ (hexDigit (n % 16) :: acc).length := by simp
        _ ≤ _ := ih _ _

theorem toHex_allHex (n : ℕ) : AllHex (toHex n) := by
  unfold toHex
  split
  · intro c hc
    rcases List.mem_cons.mp hc with h | h
    · subst h; rfl
    · exact absurd h (List.not_mem_nil c)
  · exact hexAux_allHex n n [] (fun c hc => absurd hc (List.not_mem_nil c))

theorem toHex_val (n : ℕ) : hexValList (toHex n) = n := by
  unfold toHex
  split
  · rename_i h; subst h; rfl
  · rename_i h
    have hn : n < 16 ^ n := Nat.lt_pow_self (by omega) n
    rw [hexAux_val n n [] hn]
    simp [hexValList]

theorem toHex_ne_nil (n : ℕ) : toHex n ≠ [] := by
  unfold toHex
  split
  · simp
  · rename_i h
    obtain ⟨f, hf⟩ : ∃ f, n = f + 1 := ⟨n - 1, by omega⟩
    rw [hf]
    have hstep : hexAux (f + 1) (f + 1) [] =
        hexAux f ((f + 1) / 16) [hexDigit ((f + 1) % 16)] := by
      rw [hexAux, if_neg (by omega)]
    rw [hstep]
    intro hc
    have h1 := hexAux_length_ge f ((f + 1) / 16) [hexDigit ((f + 1) % 16)]
    rw [hc] at h1
    simp at h1

theorem hexValList_replicate_zero (k : ℕ) (l : List Char) :
    hexValList (List.replicate k '0' ++ l) = hexValList l := by
  induction k with
  | zero => simp
  | succ k ih =>
    rw [List.replicate_succ, List.cons_append]
    show (hexVal '0').getD 0 * 16 ^ (List.replicate k '0' ++ l).length
        + hexValList (List.replicate k '0' ++ l) = hexValList l
    rw [ih]
    have h0 : hexVal '0' = some 0 := rfl
    rw [h0]
    norm_num

theorem allHex_replicate_zero_append {k : ℕ} {l : List Char} (hl : AllHex l) :
    AllHex (List.replicate k '0' ++ l) := by
  intro c hc
  rcases List.mem_append.mp hc with h | h
  · rw [List.eq_of_mem_replicate h]
    rfl
  · exact hl c h

/-- `str_to_scalar` undoes zero-padded `toHex`. -/
theorem str_to_scalar_pad_toHex (k n : ℕ) :
    str_to_scalar (List.replicate k '0' ++ toHex n) = some (Int.ofNat n) := by
  have hne : ¬((List.replicate k '0' ++ toHex n).isEmpty = true) := by
    intro h
    rw [List.isEmpty_iff] at h
    exact toHex_ne_nil n (List.append_eq_nil.mp h).2
  unfold str_to_scalar
  rw [if_neg hne, parseHexAux_spec _ 0 (allHex_replicate_zero_append (toHex_allHex n))]
  simp [hexValList_replicate_zero, toHex_val]

/-- Decoding a tagged string `"04" ++ A ++ B` with equal-length halves
recovers the two scalars. -/
theorem str_to_point_tag {A B : List Char} {x y : ℤ} (m : ℕ)
    (hA : A.length = m) (hB : B.length = m)
    (hAx : str_to_scalar A = some x) (hBy : str_to_scalar B = some y) :
    str_to_point ('0' :: '4' :: (A ++ B)) = some ⟨x, y⟩ := by
  have hlen : ('0' :: '4' :: (A ++ B)).length = 2 + 2 * m := by
    simp [hA, hB]
    omega
  have hdrop2 : ('0' :: '4' :: (A ++ B)).drop 2 = A ++ B := rfl
  have htake : (A ++ B).take m = A := by
    rw [← hA]
    exact List.take_left A B
  have hdropm : ('0' :: '4' :: (A ++ B)).drop (m + 2) = B := by
    show (A ++ B).drop m = B
    rw [← hA]
    exact List.drop_left A B
  unfold str_to_point
  rw [hlen, if_neg (by omega)]
  have hidx : (2 + 2 * m) / 2 - 1 = m := by omega
  have hidx2 : 1 + (2 + 2 * m) / 2 = m + 2 := by omega
  have hBtake : B.take m = B := List.take_of_length_le (by omega)
  simp only [hidx, hidx2, hdrop2, htake, hdropm, hBtake, hAx, hBy]

/-- `decode(encode(P)) = P` for points with non-negative coordinates. -/
theorem str_to_point_point_to_str (P : Point) (hx : 0 ≤ P.x) (hy : 0 ≤ P.y) :
    str_to_point (point_to_str P) = some P := by
  have hsx : scalar_to_str P.x = toHex P.x.natAbs := by
    unfold scalar_to_str
    rw [if_neg (by omega)]
  have hsy : scalar_to_str P.y = toHex P.y.natAbs := by
    unfold scalar_to_str
    rw [if_neg (by omega)]
  have hxval : str_to_scalar (toHex P.x.natAbs) = some P.x := by
    have h := str_to_scalar_pad_toHex 0 P.x.natAbs
    simp only [List.replicate_zero, List.nil_append] at h
    rw [h]
    congr 1
    simp only [Int.ofNat_eq_natCast]
    omega
  have hyval : str_to_scalar (toHex P.y.natAbs) = some P.y := by
    have h := str_to_scalar_pad_toHex 0 P.y.natAbs
    simp only [List.replicate_zero, List.nil_append] at h
    rw [h]
    congr 1
    simp only [Int.ofNat_eq_natCast]
    omega
  unfold point_to_str
  rw [hsx, hsy]
  set xh := toHex P.x.natAbs with hxh
  set yh := toHex P.y.natAbs with hyh
  by_cases h1 : xh.length < yh.length
  · rw [if_pos h1]
    have hpad : str_to_scalar (List.replicate (yh.length - xh.length) '0' ++ xh)
        = some P.x := by
      rw [hxh, str_to_scalar_pad_toHex]
      congr 1
      simp only [Int.ofNat_eq_natCast]
      omega
    exact str_to_point_tag yh.length
      (by simp [List.length_append, List.length_replicate]; omega)
      rfl hpad hyval
  · rw [if_neg h1]
    by_cases h2 : yh.length < xh.length
    · rw [if_pos h2]
      have hpad : str_to_scalar (List.replicate (xh.length - yh.length) '0' ++ yh)
          = some P.y := by
        rw [hyh, str_to_scalar_pad_toHex]
        congr 1
        simp only [Int.ofNat_eq_natCast]
        omega
      rw [List.append_assoc]
      exact str_to_point_tag xh.length rfl
        (by simp [List.length_append, List.length_replicate]; omega)
        hxval hpad
    · rw [if_neg h2]
      exact str_to_point_tag xh.length rfl (by omega) hxval hyval

/-! ### Private keys from random bytes -/

theorem foldl_byte_bound : ∀ (bs : List ℕ) (acc : ℕ), (∀ b ∈ bs, b < 256) →
    bs.foldl (fun a b => 256 * a + b) acc < (acc + 1) * 256 ^ bs.length := by
  intro bs
  induction bs with
  | nil => intro acc _; simp
  | cons b rest ih =>
    intro acc hall
    have hb : b < 256 := hall b (List.mem_cons_self b rest)
    have h1 := ih (256 * acc + b) fun c hc => hall c (List.mem_cons_of_mem _ hc)
    calc (b :: rest).foldl (fun a c => 256 * a + c) acc
        = rest.foldl (fun a c => 256 * a + c) (256 * acc + b) := rfl
      _ < (256 * acc + b + 1) * 256 ^ rest.length := h1
      _ ≤ (acc + 1) * 256 ^ (b :: rest).length := by
          simp only [List.length_cons, pow_succ]
          have : 256 * acc + b + 1 ≤ (acc + 1) * 256 := by omega
          calc (256 * acc + b + 1) * 256 ^ rest.length
              ≤ ((acc + 1) * 256) * 256 ^ rest.length :=
                Nat.mul_le_mul_right _ this
            _ = (acc + 1) * (256 ^ rest.length * 256) := by ring

theorem bytesToScalar_nonneg (bs : List ℕ) : 0 ≤ bytesToScalar bs := by
  unfold bytesToScalar
  exact Int.ofNat_nonneg _

theorem bytesToScalar_natAbs_lt {bs : List ℕ} (h : ∀ b ∈ bs, b < 256)
    (hlen : bs.length = 20) : (bytesToScalar bs).natAbs < 2 ^ 160 := by
  unfold bytesToScalar
  have h1 := foldl_byte_bound bs 0 h
  rw [hlen] at h1
  have h2 : (1 : ℕ) * 256 ^ 20 = 2 ^ 160 := by norm_num
  have h3 : ∀ z : ℕ, (Int.ofNat z).natAbs = z := fun z => rfl
  rw [h3]
  omega

/-! ### The ECDH agreement property of the compiled code -/

theorem emod_mul_collapse {p a b c : ℤ} :
    (a * ((b * c) % p)) % p = (a * b * c) % p := by
  have h0 : (b * c) % p ≡ b * c [ZMOD p] := Int.emod_emod_of_dvd _ dvd_rfl
  have h : (a * ((b * c) % p)) ≡ a * (b * c) [ZMOD p] := h0.mul_left a
  calc (a * ((b * c) % p)) % p = (a * (b * c)) % p := h
    _ = (a * b * c) % p := by rw [mul_assoc]

/-- Shared-secret symmetry over one curve, for arbitrary private scalars of
at most 161 bit positions.  This is where all the broken-arithmetic
structure comes together: both secrets are
`((c_A·c_B·G.x) mod p, (e_A·e_B·G.y) mod p)`. -/
theorem secret_symm_curve (ec : Curve) (hp : 1 < ec.prime)
    (hprime : Prime ec.prime) (ha : InField ec.prime ec.a)
    (hGx : InField ec.prime ec.G.x) (hGy : InField ec.prime ec.G.y)
    (hGx0 : ec.G.x ≠ 0) (hpbig : 2 ^ 162 ≤ ec.prime.natAbs)
    (dA dB : ℤ) (hA0 : 0 ≤ dA) (hB0 : 0 ≤ dB)
    (hAlen : (bitsC dA).length ≤ 161) (hBlen : (bitsC dB).length ≤ 161) :
    (str_to_point (point_to_str (scalar_mult ec.G dB ec))).map
        (fun pt => point_to_str (scalar_mult pt dA ec))
      = (str_to_point (point_to_str (scalar_mult ec.G dA ec))).map
        (fun pt => point_to_str (scalar_mult pt dB ec)) := by
  have hp0 : (0 : ℤ) < ec.prime := by omega
  have hpne : ec.prime ≠ 0 := by omega
  have hndvdG : ¬ ec.prime ∣ ec.G.x :=
    not_dvd_of_small hGx0 (by obtain ⟨h1, h2⟩ := hGx; omega)
  have hrobG : ∀ D : ℤ, D ≠ 0 → D.natAbs < 2 ^ (161 + 1) →
      (D * ec.G.x) % ec.prime ≠ 0 :=
    robust_of_prime hprime hndvdG hpbig
  have hGeta : (⟨ec.G.x, ec.G.y⟩ : Point) = ec.G := rfl
  have hcharB := scalar_mult_char hp ha ec.G.x ec.G.y hGx hGy 161 hrobG dB hBlen
  have hcharA := scalar_mult_char hp ha ec.G.x ec.G.y hGx hGy 161 hrobG dA hAlen
  rw [hGeta] at hcharB hcharA
  have hround0 : str_to_point (point_to_str (⟨0, 0⟩ : Point)) =
      some (⟨0, 0⟩ : Point) :=
    str_to_point_point_to_str _ le_rfl le_rfl
  rcases hstB : cAcc (bitsC dB) 0 none with _ | ⟨cB, eB⟩
  · -- dB = 0
    have hB0' : dB = 0 := eq_zero_of_bitsC_all_false hB0 (cAcc_none_all_false _ _ hstB)
    subst hB0'
    rcases hstA : cAcc (bitsC dA) 0 none with _ | ⟨cA, eA⟩
    · -- dA = 0 as well
      have hA0' : dA = 0 := eq_zero_of_bitsC_all_false hA0 (cAcc_none_all_false _ _ hstA)
      subst hA0'
      rfl
    · -- dB = 0, dA arbitrary
      rw [hcharA.1, hstA] at *
      simp only [scalar_mult_zero, stPoint]
      have hroundA := str_to_point_point_to_str
        (⟨(cA * ec.G.x) % ec.prime, (eA * ec.G.y) % ec.prime⟩ : Point)
        (Int.emod_nonneg _ hpne) (Int.emod_nonneg _ hpne)
      rw [hroundA, hround0]
      simp only [Option.map_some']
      rw [scalar_mult_id_base hp ha]
  · rcases hstA : cAcc (bitsC dA) 0 none with _ | ⟨cA, eA⟩
    · -- dA = 0, dB arbitrary (mirror)
      have hA0' : dA = 0 := eq_zero_of_bitsC_all_false hA0 (cAcc_none_all_false _ _ hstA)
      subst hA0'
      rw [hcharB.1, hstB] at *
      simp only [scalar_mult_zero, stPoint]
      have hroundB := str_to_point_point_to_str
        (⟨(cB * ec.G.x) % ec.prime, (eB * ec.G.y) % ec.prime⟩ : Point)
        (Int.emod_nonneg _ hpne) (Int.emod_nonneg _ hpne)
      rw [hroundB, hround0]
      simp only [Option.map_some']
      rw [scalar_mult_id_base hp ha]
    · -- both automaton states set: the interesting case
      rw [hstB] at hcharB
      rw [hstA] at hcharA
      obtain ⟨hcB0, hcBb, heB⟩ := hcharB.2
      obtain ⟨hcA0, hcAb, heA⟩ := hcharA.2
      rw [hcharB.1, hcharA.1]
      simp only [stPoint]
      have hroundB := str_to_point_point_to_str
        (⟨(cB * ec.G.x) % ec.prime, (eB * ec.G.y) % ec.prime⟩ : Point)
        (Int.emod_nonneg _ hpne) (Int.emod_nonneg _ hpne)
      have hroundA := str_to_point_point_to_str
        (⟨(cA * ec.G.x) % ec.prime, (eA * ec.G.y) % ec.prime⟩ : Point)
        (Int.emod_nonneg _ hpne) (Int.emod_nonneg _ hpne)
      rw [hroundB, hroundA]
      simp only [Option.map_some']
      congr 1
      -- robustness of the two public x-coordinates
      have hndvdB : ¬ ec.prime ∣ cB * ec.G.x := by
        intro h
        rcases hprime.dvd_or_dvd h with h1 | h1
        · exact not_dvd_of_small hcB0 (by omega) h1
        · exact hndvdG h1
      have hndvdA : ¬ ec.prime ∣ cA * ec.G.x := by
        intro h
        rcases hprime.dvd_or_dvd h with h1 | h1
        · exact not_dvd_of_small hcA0 (by omega) h1
        · exact hndvdG h1
      have hrobB : ∀ D : ℤ, D ≠ 0 → D.natAbs < 2 ^ (161 + 1) →
          (D * ((cB * ec.G.x) % ec.prime)) % ec.prime ≠ 0 := by
        intro D hD hDb hmod
        have h1 : ec.prime ∣ D * ((cB * ec.G.x) % ec.prime) :=
          Int.dvd_of_emod_eq_zero hmod
        have hmodeq0 : (cB * ec.G.x) % ec.prime ≡ cB * ec.G.x [ZMOD ec.prime] :=
          Int.emod_emod_of_dvd _ dvd_rfl
        have h2 : ec.prime ∣ D * (cB * ec.G.x) := by
          have hmodeq : D * ((cB * ec.G.x) % ec.prime)
              ≡ D * (cB * ec.G.x) [ZMOD ec.prime] := hmodeq0.mul_left D
          have h3 : (D * (cB * ec.G.x)) % ec.prime
              = (D * ((cB * ec.G.x) % ec.prime)) % ec.prime := hmodeq.symm
          rw [Int.dvd_iff_emod_eq_zero] at h1 ⊢
          rw [h3, h1]
        rcases hprime.dvd_or_dvd h2 with h4 | h4
        · exact not_dvd_of_small hD (by omega) h4
        · exact hndvdB h4
      have hrobA : ∀ D : ℤ, D ≠ 0 → D.natAbs < 2 ^ (161 + 1) →
          (D * ((cA * ec.G.x) % ec.prime)) % ec.prime ≠ 0 := by
        intro D hD hDb hmod
        have h1 : ec.prime ∣ D * ((cA * ec.G.x) % ec.prime) :=
          Int.dvd_of_emod_eq_zero hmod
        have hmodeq0 : (cA * ec.G.x) % ec.prime ≡ cA * ec.G.x [ZMOD ec.prime] :=
          Int.emod_emod_of_dvd _ dvd_rfl
        have h2 : ec.prime ∣ D * (cA * ec.G.x) := by
          have hmodeq : D * ((cA * ec.G.x) % ec.prime)
              ≡ D * (cA * ec.G.x) [ZMOD ec.prime] := hmodeq0.mul_left D
          have h3 : (D * (cA * ec.G.x)) % ec.prime
              = (D * ((cA * ec.G.x) % ec.prime)) % ec.prime := hmodeq.symm
          rw [Int.dvd_iff_emod_eq_zero] at h1 ⊢
          rw [h3, h1]
        rcases hprime.dvd_or_dvd h2 with h4 | h4
        · exact not_dvd_of_small hD (by omega) h4
        · exact hndvdA h4
      have hfieldB : InField ec.prime ((cB * ec.G.x) % ec.prime) :=
        ⟨Int.emod_nonneg _ hpne, Int.emod_lt_of_pos _ hp0⟩
      have hfieldB' : InField ec.prime ((eB * ec.G.y) % ec.prime) :=
        ⟨Int.emod_nonneg _ hpne, Int.emod_lt_of_pos _ hp0⟩
      have hfieldA : InField ec.prime ((cA * ec.G.x) % ec.prime) :=
        ⟨Int.emod_nonneg _ hpne, Int.emod_lt_of_pos _ hp0⟩
      have hfieldA' : InField ec.prime ((eA * ec.G.y) % ec.prime) :=
        ⟨Int.emod_nonneg _ hpne, Int.emod_lt_of_pos _ hp0⟩
      have hsecA := scalar_mult_char hp ha ((cB * ec.G.x) % ec.prime)
        ((eB * ec.G.y) % ec.prime) hfieldB hfieldB' 161 hrobB dA hAlen
      have hsecB := scalar_mult_char hp ha ((cA * ec.G.x) % ec.prime)
        ((eA * ec.G.y) % ec.prime) hfieldA hfieldA' 161 hrobA dB hBlen
      rw [hstA] at hsecA
      rw [hstB] at hsecB
      rw [hsecA.1, hsecB.1]
      simp only [stPoint]
      have hx1 : (cA * ((cB * ec.G.x) % ec.prime)) % ec.prime
          = (cB * ((cA * ec.G.x) % ec.prime)) % ec.prime := by
        rw [emod_mul_collapse, emod_mul_collapse]
        ring_nf
      have hy1 : (eA * ((eB * ec.G.y) % ec.prime)) % ec.prime
          = (eB * ((eA * ec.G.y) % ec.prime)) % ec.prime := by
        rw [emod_mul_collapse, emod_mul_collapse]
        ring_nf
      rw [hx1, hy1]

theorem prime_int_k1 : Prime get_secp192k1_curve.prime := by
  have h : get_secp192k1_curve.prime
      = ((6277101735386680763835789423207666416102355444459739541047 : ℕ) : ℤ) := by
    norm_num [get_secp192k1_curve]
  rw [h]
  exact Nat.prime_iff_prime_int.mp prime_secp192k1

theorem prime_int_r1 : Prime get_secp192r1_curve.prime := by
  have h : get_secp192r1_curve.prime
      = ((6277101735386680763835789423207666416083908700390324961279 : ℕ) : ℤ) := by
    norm_num [get_secp192r1_curve]
  rw [h]
  exact Nat.prime_iff_prime_int.mp prime_secp192r1

theorem gen_key_pair_k1 (bs : List ℕ) (h : bs.length = 20) :
    gen_key_pair .SECP_192_K1 bs =
      { private_ := bytesToScalar bs,
        public := point_to_str
          (scalar_mult get_secp192k1_curve.G (bytesToScalar bs) get_secp192k1_curve),
        ec := get_secp192k1_curve } := by
  have htake : bs.take 20 = bs := by
    rw [← h]
    exact List.take_length bs
  show ({ private_ := bytesToScalar (bs.take 20),
          public := point_to_str
            (scalar_mult get_secp192k1_curve.G (bytesToScalar (bs.take 20))
              get_secp192k1_curve),
          ec := get_secp192k1_curve } : KeyPair) = _
  rw [htake]

theorem gen_key_pair_r1 (bs : List ℕ) (h : bs.length = 20) :
    gen_key_pair .SECP_192_R1 bs =
      { private_ := bytesToScalar bs,
        public := point_to_str
          (scalar_mult get_secp192r1_curve.G (bytesToScalar bs) get_secp192r1_curve),
        ec := get_secp192r1_curve } := by
  have htake : bs.take 20 = bs := by
    rw [← h]
    exact List.take_length bs
  show ({ private_ := bytesToScalar (bs.take 20),
          public := point_to_str
            (scalar_mult get_secp192r1_curve.G (bytesToScalar (bs.take 20))
              get_secp192r1_curve),
          ec := get_secp192r1_curve } : KeyPair) = _
  rw [htake]

/-- C1: for every pair of key pairs generated on the same curve, over all
random byte strings feeding the private scalars, the two derived shared
secrets are identical strings. -/
theorem get_secret_symmetric (c : Curves) (ba bb : List ℕ)
    (hla : ba.length = 20) (hlb : bb.length = 20)
    (hva : ∀ x ∈ ba, x < 256) (hvb : ∀ x ∈ bb, x < 256) :
    get_secret (gen_key_pair c ba) (gen_key_pair c bb).public
      = get_secret (gen_key_pair c bb) (gen_key_pair c ba).public := by
  have hAlen : (bitsC (bytesToScalar ba)).length ≤ 161 := by
    rw [bitsC_of_nonneg (bytesToScalar_nonneg ba)]
    exact lsbBits_length (bytesToScalar_natAbs_lt hva hla)
  have hBlen : (bitsC (bytesToScalar bb)).length ≤ 161 := by
    rw [bitsC_of_nonneg (bytesToScalar_nonneg bb)]
    exact lsbBits_length (bytesToScalar_natAbs_lt hvb hlb)
  cases c with
  | SECP_192_K1 =>
    rw [gen_key_pair_k1 ba hla, gen_key_pair_k1 bb hlb]
    exact secret_symm_curve get_secp192k1_curve (by decide) prime_int_k1
      (by constructor <;> decide) (by constructor <;> decide)
      (by constructor <;> decide) (by decide) (by decide)
      (bytesToScalar ba) (bytesToScalar bb)
      (bytesToScalar_nonneg ba) (bytesToScalar_nonneg bb) hAlen hBlen
  | SECP_192_R1 =>
    rw [gen_key_pair_r1 ba hla, gen_key_pair_r1 bb hlb]
    exact secret_symm_curve get_secp192r1_curve (by decide) prime_int_r1
      (by constructor <;> decide) (by constructor <;> decide)
      (by constructor <;> decide) (by decide) (by decide)
      (bytesToScalar ba) (bytesToScalar bb)
      (bytesToScalar_nonneg ba) (bytesToScalar_nonneg bb) hAlen hBlen

/-- Modelled from the spec: the naive reference definition of `k·P` as
repeated `point_add` with `P` (`0·P` is the identity, `(k+1)·P = k·P + P`). -/
def naive_scalar_mult : Point → ℕ → Curve → Point
  | _, 0, _ => create_point
  | p, k + 1, ec => point_add (naive_scalar_mult p k ec) p ec

/-- `point_to_str` always produces `"04"` followed by two equal-length
fields. -/
theorem point_to_str_shape (P : Point) (hx : 0 ≤ P.x) (hy : 0 ≤ P.y) :
    ∃ A B : List Char, point_to_str P = '0' :: '4' :: (A ++ B)
      ∧ A.length = B.length := by
  have hsx : scalar_to_str P.x = toHex P.x.natAbs := by
    unfold scalar_to_str
    rw [if_neg (by omega)]
  have hsy : scalar_to_str P.y = toHex P.y.natAbs := by
    unfold scalar_to_str
    rw [if_neg (by omega)]
  unfold point_to_str
  rw [hsx, hsy]
  set xh := toHex P.x.natAbs
  set yh := toHex P.y.natAbs
  by_cases h1 : xh.length < yh.length
  · rw [if_pos h1]
    exact ⟨List.replicate (yh.length - xh.length) '0' ++ xh, yh, rfl,
      by simp [List.length_append, List.length_replicate]; omega⟩
  · rw [if_neg h1]
    by_cases h2 : yh.length < xh.length
    · rw [if_pos h2]
      refine ⟨xh, List.replicate (xh.length - yh.length) '0' ++ yh,
        by rw [List.append_assoc], ?_⟩
      simp [List.length_append, List.length_replicate]
      omega
    · rw [if_neg h2]
      exact ⟨xh, yh, rfl, by omega⟩

/-- `str_to_point` never reports an error: on any hex string of invalid
(odd, ≥ 5) length it still assembles and returns a point. -/
theorem str_to_point_no_validation (cs : List Char) (hlen : 5 ≤ cs.length)
    (hodd : cs.length % 2 = 1) (hhex : AllHex cs) :
    (str_to_point cs).isSome = true := by
  have hA : AllHex ((cs.drop 2).take (cs.length / 2 - 1)) := fun c hc =>
    hhex c (List.mem_of_mem_drop (List.mem_of_mem_take hc))
  have hB : AllHex ((cs.drop (1 + cs.length / 2)).take (cs.length / 2 - 1)) :=
    fun c hc => hhex c (List.mem_of_mem_drop (List.mem_of_mem_take hc))
  have hAlen : ((cs.drop 2).take (cs.length / 2 - 1)).length = cs.length / 2 - 1 := by
    simp only [List.length_take, List.length_drop]
    omega
  have hBlen : ((cs.drop (1 + cs.length / 2)).take (cs.length / 2 - 1)).length
      = cs.length / 2 - 1 := by
    simp only [List.length_take, List.length_drop]
    omega
  have hAne : ¬(((cs.drop 2).take (cs.length / 2 - 1)).isEmpty = true) := by
    intro h
    rw [List.isEmpty_iff] at h
    rw [h] at hAlen
    simp at hAlen
    omega
  have hBne : ¬(((cs.drop (1 + cs.length / 2)).take (cs.length / 2 - 1)).isEmpty
      = true) := by
    intro h
    rw [List.isEmpty_iff] at h
    rw [h] at hBlen
    simp at hBlen
    omega
  unfold str_to_point str_to_scalar
  rw [if_neg (by omega)]
  simp only [if_neg hAne, if_neg hBne, parseHexAux_spec _ 0 hA,
    parseHexAux_spec _ 0 hB, Option.map_some']
  rfl

/-! ### Claim theorems -/

/-- C1: for every pair of key pairs A and B generated on the same curve,
quantifying over the random byte strings (20 bytes each) that produce
their private scalars, `get_secret(A, B.public)` and
`get_secret(B, A.public)` return identical strings. -/
theorem claim_c1_shared_secret_agreement (c : Curves) (ba bb : List ℕ)
    (hla : ba.length = 20) (hlb : bb.length = 20)
    (hva : ∀ x ∈ ba, x < 256) (hvb : ∀ x ∈ bb, x < 256) :
    get_secret (gen_key_pair c ba) (gen_key_pair c bb).public
      = get_secret (gen_key_pair c bb) (gen_key_pair c ba).public :=
  get_secret_symmetric c ba bb hla hlb hva hvb

/-- Witness for C1: two concrete 20-byte random strings on secp192k1. -/
theorem claim_c1_witness :
    (List.replicate 20 (7 : ℕ)).length = 20
    ∧ get_secret (gen_key_pair .SECP_192_K1 (List.replicate 20 7))
        (gen_key_pair .SECP_192_K1 (List.replicate 20 11)).public
      = get_secret (gen_key_pair .SECP_192_K1 (List.replicate 20 11))
        (gen_key_pair .SECP_192_K1 (List.replicate 20 7)).public :=
  ⟨by decide,
   claim_c1_shared_secret_agreement .SECP_192_K1 (List.replicate 20 7)
     (List.replicate 20 11) (by decide) (by decide)
     (by intro x hx; rw [List.eq_of_mem_replicate hx]; omega)
     (by intro x hx; rw [List.eq_of_mem_replicate hx]; omega)⟩

/-- C2 (code bug): `prime_field_div` does not compute `a·b⁻¹ mod p`.  At
the failing input `a = 1, b = 2, p = 5` the claim demands `res = 3`
(`2⁻¹ = 3 mod 5`) and `mul(div(1,2,5), 2, 5) = 1`; the code yields `0` for
both, because its extended-Euclid loop erroneously divides the dividend
`a` instead of the remainder chain, leaving the Bézout coefficient `0`. -/
theorem claim_c2_div_broken :
    prime_field_div 1 2 5 = 0
    ∧ prime_field_mul (prime_field_div 1 2 5) 2 5 = 0
    ∧ (0 : ℤ) ≠ 3 ∧ (0 : ℤ) ≠ 1 := by
  refine ⟨by decide, by decide, by decide, by decide⟩

/-- C3 (code bug): `scalar_mult(P, k)` does not agree with the naive
reference of `k−1` repeated `point_add`s.  At `P = G` (secp192k1) and
`k = 2` the naive reference hits the equal-x branch of `point_add` and
returns the identity, while `scalar_mult` returns
`point_double(G) = ((p − 2·Gx) mod p, p − Gy)`. -/
theorem claim_c3_scalar_mult_vs_naive :
    naive_scalar_mult get_secp192k1_curve.G 2 get_secp192k1_curve = ⟨0, 0⟩
    ∧ scalar_mult get_secp192k1_curve.G 2 get_secp192k1_curve
        = ⟨0x49601de27f502ca3b29f05fafe901797c4b45c9a2a3f0374,
           0x64d0d09263a9d7587bbe9c2fea4179cbbf7d557626a1be9a⟩
    ∧ scalar_mult get_secp192k1_curve.G 2 get_secp192k1_curve
        ≠ naive_scalar_mult get_secp192k1_curve.G 2 get_secp192k1_curve := by
  refine ⟨by decide, by decide, by decide⟩

/-- C4: for non-identity points with equal x-coordinates and `P ≠ Q` with
`Q.y = −P.y mod p`, `point_add` returns the `(0,0)` identity instead of
applying the chord-slope formula. -/
theorem claim_c4_add_inverse_identity (ec : Curve) (P Q : Point)
    (hP : ¬(P.x = 0 ∧ P.y = 0)) (hQ : ¬(Q.x = 0 ∧ Q.y = 0)) (hne : P ≠ Q)
    (hx : P.x = Q.x) (hy : Q.y = (-P.y) % ec.prime) :
    point_add P Q ec = ⟨0, 0⟩ := by
  unfold point_add
  rw [if_neg hP, if_neg hQ, if_pos hx]
  rfl

/-- Witness for C4: `G` and `−G` on secp192k1. -/
theorem claim_c4_witness :
    point_add get_secp192k1_curve.G
      ⟨0xdb4ff10ec057e9ae26b07d0280b7f4341da5d1b1eae06c7d,
       0x64d0d09263a9d7587bbe9c2fea4179cbbf7d557626a1be9a⟩
      get_secp192k1_curve = ⟨0, 0⟩ :=
  claim_c4_add_inverse_identity get_secp192k1_curve _ _
    (by decide) (by decide) (by decide) (by decide) (by decide)

/-- C5 (code bug): `point_double` does not special-case `Py ≡ 0`: instead
of the identity it returns `((−2·Px) mod p, 0)`.  Failing input: the point
`(1, 0)` on secp192k1, where the result is `(p − 2, 0) ≠ (0, 0)`. -/
theorem claim_c5_double_y_zero :
    point_double ⟨1, 0⟩ get_secp192k1_curve
      = ⟨0xfffffffffffffffffffffffffffffffffffffffeffffee35, 0⟩
    ∧ point_double ⟨1, 0⟩ get_secp192k1_curve ≠ ⟨0, 0⟩ := by
  refine ⟨by decide, by decide⟩

/-- Counterexample for C6: `prime_field_div(1, 0, 5)` does not fail — it
returns the value `0`. -/
theorem claim_c6_counterexample : prime_field_div 1 0 5 = 0 := by decide

/-- C6 as amended: with a divisor `b ≡ 0 (mod p)`, `prime_field_div`
returns normally and sets `res = 0` (for any reduced dividend; no error
path exists in the code). -/
theorem claim_c6_div_by_zero_returns_zero (a b p : ℤ)
    (ha : 0 ≤ a) (hap : a < p) (hb : b % p = 0) :
    prime_field_div a b p = 0 :=
  prime_field_div_eq_zero ⟨ha, hap⟩ b

/-- Witness for C6 as amended. -/
theorem claim_c6_witness :
    (0 : ℤ) ≤ 1 ∧ (1 : ℤ) < 5 ∧ (0 : ℤ) % 5 = 0 ∧ prime_field_div 1 0 5 = 0 :=
  ⟨by decide, by decide, by decide,
   claim_c6_div_by_zero_returns_zero 1 0 5 (by decide) (by decide) (by decide)⟩

/-- Counterexample for C7: the 5-character (invalid-length) string
`"04abc"` is decoded to the point `(0xa, 0xb)` instead of failing. -/
theorem claim_c7_counterexample :
    str_to_point ['0', '4', 'a', 'b', 'c'] = some ⟨10, 11⟩ := by decide

/-- C7 as amended: `str_to_point` performs no length or alphabet
validation and cannot fail; on any hex string of invalid (odd ≥ 5)
length it still returns a (garbage) point. -/
theorem claim_c7_no_malformed_error (cs : List Char) (hlen : 5 ≤ cs.length)
    (hodd : cs.length % 2 = 1) (hhex : AllHex cs) :
    (str_to_point cs).isSome = true :=
  str_to_point_no_validation cs hlen hodd hhex

/-- Witness for C7 as amended. -/
theorem claim_c7_witness :
    5 ≤ (['0', '4', 'a', 'b', 'c'] : List Char).length
    ∧ (str_to_point ['0', '4', 'a', 'b', 'c']).isSome = true :=
  ⟨by decide,
   claim_c7_no_malformed_error ['0', '4', 'a', 'b', 'c'] (by decide) (by decide)
     (by unfold AllHex; decide)⟩

/-- C8: decoding the encoding of a valid non-identity point (coordinates
in `[0, p)`) returns the same point, and the encoding is `"04"` followed
by two equal-width fields. -/
theorem claim_c8_roundtrip (p : ℤ) (P : Point)
    (hx : 0 ≤ P.x) (hxp : P.x < p) (hy : 0 ≤ P.y) (hyp : P.y < p)
    (hP : ¬(P.x = 0 ∧ P.y = 0)) :
    str_to_point (point_to_str P) = some P
    ∧ ∃ A B : List Char, point_to_str P = '0' :: '4' :: (A ++ B)
        ∧ A.length = B.length :=
  ⟨str_to_point_point_to_str P hx hy, point_to_str_shape P hx hy⟩

/-- Witness for C8 at `P = (0xab, 0x3)` in the secp192k1 field. -/
theorem claim_c8_witness :
    str_to_point (point_to_str ⟨0xab, 0x3⟩) = some (⟨0xab, 0x3⟩ : Point)
    ∧ ∃ A B : List Char, point_to_str (⟨0xab, 0x3⟩ : Point) = '0' :: '4' :: (A ++ B)
        ∧ A.length = B.length :=
  claim_c8_roundtrip get_secp192k1_curve.prime ⟨0xab, 0x3⟩
    (by decide) (by decide) (by decide) (by decide) (by decide)

/-- Counterexample for C9: the all-zero 20-byte draw yields private scalar
`d = 0`, violating `0 < d`. -/
theorem claim_c9_counterexample :
    (gen_key_pair .SECP_192_K1 (List.replicate 20 0)).private_ = 0
    ∧ ¬(0 < (gen_key_pair .SECP_192_K1 (List.replicate 20 0)).private_) := by
  refine ⟨by decide, by decide⟩

/-- C9 as amended: for every 20-byte random draw the private scalar
satisfies `0 ≤ d < n` (with `n` the selected curve's order); the lower
bound is not strict. -/
theorem claim_c9_private_key_bounds (c : Curves) (bs : List ℕ)
    (hlen : bs.length = 20) (hb : ∀ x ∈ bs, x < 256) :
    0 ≤ (gen_key_pair c bs).private_
    ∧ (gen_key_pair c bs).private_ < (gen_key_pair c bs).ec.order := by
  have h1 := bytesToScalar_natAbs_lt hb hlen
  have h2 := bytesToScalar_nonneg bs
  cases c with
  | SECP_192_K1 =>
    rw [gen_key_pair_k1 bs hlen]
    refine ⟨h2, ?_⟩
    show bytesToScalar bs < get_secp192k1_curve.order
    have h3 : get_secp192k1_curve.order
        = (6277101735386680763835789423061264271957123915200845512077 : ℤ) := by
      norm_num [get_secp192k1_curve]
    rw [h3]
    have h4 : ((2 : ℤ)) ^ 160 ≤ 6277101735386680763835789423061264271957123915200845512077 := by
      norm_num
    omega
  | SECP_192_R1 =>
    rw [gen_key_pair_r1 bs hlen]
    refine ⟨h2, ?_⟩
    show bytesToScalar bs < get_secp192r1_curve.order
    have h3 : get_secp192r1_curve.order
        = (6277101735386680763835789423176059013767194773182842284081 : ℤ) := by
      norm_num [get_secp192r1_curve]
    rw [h3]
    have h4 : ((2 : ℤ)) ^ 160 ≤ 6277101735386680763835789423176059013767194773182842284081 := by
      norm_num
    omega

/-- Witness for C9 as amended, at an all-`0xff` byte draw. -/
theorem claim_c9_witness :
    (List.replicate 20 (255 : ℕ)).length = 20
    ∧ 0 ≤ (gen_key_pair .SECP_192_K1 (List.replicate 20 255)).private_
    ∧ (gen_key_pair .SECP_192_K1 (List.replicate 20 255)).private_
        < (gen_key_pair .SECP_192_K1 (List.replicate 20 255)).ec.order := by
  refine ⟨by decide, ?_, ?_⟩
  · exact (claim_c9_private_key_bounds .SECP_192_K1 (List.replicate 20 255)
      (by decide) (by intro x hx; rw [List.eq_of_mem_replicate hx]; omega)).1
  · exact (claim_c9_private_key_bounds .SECP_192_K1 (List.replicate 20 255)
      (by decide) (by intro x hx; rw [List.eq_of_mem_replicate hx]; omega)).2

/-- C10: calling `point_add` with the same non-identity point as both
arguments returns the `(0,0)` identity, not the double `2P`: the equal-x
branch fires whenever the x-coordinates match. -/
theorem claim_c10_add_same_point (ec : Curve) (P : Point)
    (hP : ¬(P.x = 0 ∧ P.y = 0)) :
    point_add P P ec = ⟨0, 0⟩ := by
  unfold point_add
  rw [if_neg hP, if_neg hP, if_pos rfl]
  rfl

/-- Witness for C10 at `P = G` on secp192k1. -/
theorem claim_c10_witness :
    point_add get_secp192k1_curve.G get_secp192k1_curve.G get_secp192k1_curve
      = ⟨0, 0⟩ :=
  claim_c10_add_same_point get_secp192k1_curve get_secp192k1_curve.G (by decide)

end ECDH
